import Mathlib

/-!
Verification development for the service execution engine (`src/service.rs`).

The heart of the code is `Context::poll`: a cooperative single-threaded loop
that drives a primary stream plus a growable, swap-compacted vector of
secondary jobs (`Item`), feeding produced values and errors into the
`Service` callbacks `call` and `finished`, and terminating the whole engine
the moment a callback (or a sink job) yields a definitive result.

Embedding choices:

* futures-0.1 `Stream::poll` outcomes (`Ok(Ready(Some v))`, `Ok(Ready(None))`,
  `Ok(NotReady)`, `Err e`) are flattened into the inductive `StreamPoll`;
  `Future::poll` outcomes and the service `Poll<Item, Error>` return type into
  the inductive `Poll`.
* streams, futures, sinks and spawned tasks are modelled as scripts: a list of
  poll outcomes consumed one at a time; an exhausted script polls as
  `notReady` forever.  Polling a job consumes the head of its script, which
  models the in-place mutation performed by `poll` in the source.
* the service (trait `Service`) is a state machine over an arbitrary state
  type `σ` standing for the `st`/`srv` data reachable from the callbacks;
  registration of new jobs from inside a callback (the reentrant
  `spawn`/`add_future`/`add_stream`/`add_fut_stream`/`add_sink` API) is
  modelled by the list of jobs a callback returns, which the engine appends
  to the job vector exactly where the source pushes them.  Job polls
  themselves are pure scripts.
* each job carries a ghost numeric id (assigned at registration, fresh ids
  from the `nextId` counter).  Ids are pure instrumentation used to state
  per-job trace properties; no engine decision depends on them.
* the interpreter records a chronological trace of observable events
  (primary-stream polls, `call`/`finished` invocations with argument and
  response, job polls with their outcome) so that ordering and counting
  claims can be stated about it.
* both loops take explicit fuel (the outer loop can iterate forever if jobs
  keep producing, the inner loop can grow while callbacks keep registering);
  running out of fuel is reported as a distinct outcome, never as a result.
-/

/-- Outcome of polling a stream once (futures 0.1 `Poll<Option<T>, E>`). -/
inductive StreamPoll (I E : Type) where
  | ready (v : I)
  | done
  | notReady
  | err (e : E)
deriving DecidableEq

/-- Outcome of polling a future once, and also the `Poll<Item, Error>` type
returned by `Service::call` / `Service::finished`. -/
inductive Poll (T E : Type) where
  | ready (t : T)
  | notReady
  | err (e : E)
deriving DecidableEq

/-- Definitive terminal result of the engine (`Ok(Async::Ready(v))` or
`Err(e)` returned from `Context::poll`). -/
inductive Term (RI RE : Type) where
  | ready (r : RI)
  | err (e : RE)
deriving DecidableEq

/-- The six job kinds of the `Item` enum, each carrying its remaining script.
`I`/`E` are the service message item/error types, `RI`/`RE` the result
item/error types.  A `FutStream` resolves to the script of a secondary
stream; a `Sink` directly yields values of the engine's result type. -/
inductive Item (I E RI RE : Type) where
  | CtxFuture (sc : List (Poll I E))
  | CtxSpawnFuture (sc : List (Poll Unit Unit))
  | Future (sc : List (Poll I E))
  | Stream (sc : List (StreamPoll I E))
  | FutStream (sc : List (Poll (List (StreamPoll I E)) E))
  | Sink (sc : List (Poll RI RE))
deriving DecidableEq

/-- The service trait: `start` runs once on first poll, `call` receives each
produced item or error, `finished` is invoked when the primary stream reports
exhaustion.  Besides the response, `call`/`finished`/`start` return the list
of jobs the callback registered through the context. -/
structure Service (σ I E RI RE : Type) where
  start : σ → σ × List (Item I E RI RE)
  call : σ → Except E I → σ × Poll RI RE × List (Item I E RI RE)
  finished : σ → σ × Poll RI RE × List (Item I E RI RE)

/-- Engine state: service state, the started flag, the primary stream script,
the job vector (with ghost ids) and the ghost fresh-id counter. -/
structure Context (σ I E RI RE : Type) where
  srvSt : σ
  started : Bool
  stream : List (StreamPoll I E)
  items : List (Nat × Item I E RI RE)
  nextId : Nat
deriving DecidableEq

/-- Observable outcome of polling one job, as recorded in the trace. -/
inductive JobRes (I E RI RE : Type) where
  | ok (v : I)
  | errv (e : E)
  | streamDone
  | resolved
  | spawnDone
  | spawnErr
  | sinkVal (r : RI)
  | sinkErr (e : RE)
  | pend
deriving DecidableEq

deriving instance DecidableEq for Except

/-- Trace events recorded by the interpreter, in chronological order. -/
inductive Event (I E RI RE : Type) where
  | startEv
  | streamEv (r : StreamPoll I E)
  | callEv (arg : Except E I) (resp : Poll RI RE)
  | finishedEv (resp : Poll RI RE)
  | jobEv (id : Nat) (r : JobRes I E RI RE)
deriving DecidableEq

/-- Result of running the inner job loop (or one whole sweep): an immediate
definitive return, loop completion with the updated context and the
`not_ready` flag, or fuel exhaustion.  Each carries the trace it produced. -/
inductive InnerRes (σ I E RI RE : Type) where
  | term (t : Term RI RE) (tr : List (Event I E RI RE))
  | cont (ctx : Context σ I E RI RE) (notReady : Bool) (tr : List (Event I E RI RE))
  | fuelOut (tr : List (Event I E RI RE))
deriving DecidableEq

/-- Result of `Context.poll`: a definitive result, suspension with the
context to be polled again later, or fuel exhaustion. -/
inductive PollRes (σ I E RI RE : Type) where
  | term (t : Term RI RE)
  | notReady (ctx : Context σ I E RI RE)
  | outOfFuel
deriving DecidableEq

/-- Poll a stream script: consume the head outcome; an empty script is a
stream that is forever not ready. -/
def pollStream {I E : Type} : List (StreamPoll I E) → StreamPoll I E × List (StreamPoll I E)
  | [] => (.notReady, [])
  | p :: rest => (p, rest)

/-- Poll a future script: consume the head outcome; an empty script is a
future that is forever not ready. -/
def pollFut {T E : Type} : List (Poll T E) → Poll T E × List (Poll T E)
  | [] => (.notReady, [])
  | p :: rest => (p, rest)

/-- Assign consecutive ghost ids starting at `n` to freshly registered jobs. -/
def assignIds {I E RI RE : Type} (n : Nat) :
    List (Item I E RI RE) → List (Nat × Item I E RI RE) × Nat
  | [] => ([], n)
  | j :: js =>
    match assignIds (n + 1) js with
    | (r, m) => ((n, j) :: r, m)

/-- Append freshly registered jobs to the job vector (the effect of the
registration API calls made by a callback). -/
def addItems {σ I E RI RE : Type} (ctx : Context σ I E RI RE)
    (regs : List (Item I E RI RE)) : Context σ I E RI RE :=
  match assignIds ctx.nextId regs with
  | (regs1, n1) => { ctx with items := ctx.items ++ regs1, nextId := n1 }

/-- Outcome of polling one job at the current index, before the bookkeeping
of lines 482-502 of the source: either an immediate definitive return of the
whole engine, or a step carrying the updated service state, the updated job,
the jobs registered by a callback, the optional resolved stream to push, the
`drop` flag, whether `not_ready` was cleared, and the emitted events. -/
inductive JobStep (σ I E RI RE : Type) where
  | ret (t : Term RI RE) (evs : List (Event I E RI RE))
  | step (s : σ) (upd : Item I E RI RE) (regs push : List (Item I E RI RE))
      (drop prog : Bool) (evs : List (Event I E RI RE))

/-- Poll one job per its kind, mirroring the big `match self.items[idx]`
of the source (lines 384-480). -/
def pollJob {σ I E RI RE : Type} (S : Service σ I E RI RE) (s : σ) (id : Nat) :
    Item I E RI RE → JobStep σ I E RI RE
  | .Sink sc =>
    match pollFut sc with
    | (.ready r, _) => .ret (.ready r) [.jobEv id (.sinkVal r)]
    | (.err e, _) => .ret (.err e) [.jobEv id (.sinkErr e)]
    | (.notReady, sc1) => .step s (.Sink sc1) [] [] false false [.jobEv id .pend]
  | .Stream sc =>
    match pollStream sc with
    | (.ready v, sc1) =>
      match S.call s (.ok v) with
      | (s1, .notReady, regs) =>
        .step s1 (.Stream sc1) regs [] false true
          [.jobEv id (.ok v), .callEv (.ok v) .notReady]
      | (_, .ready r, _) => .ret (.ready r) [.jobEv id (.ok v), .callEv (.ok v) (.ready r)]
      | (_, .err e, _) => .ret (.err e) [.jobEv id (.ok v), .callEv (.ok v) (.err e)]
    | (.done, sc1) => .step s (.Stream sc1) [] [] true false [.jobEv id .streamDone]
    | (.notReady, sc1) => .step s (.Stream sc1) [] [] false false [.jobEv id .pend]
    | (.err e, sc1) =>
      match S.call s (.error e) with
      | (s1, .notReady, regs) =>
        .step s1 (.Stream sc1) regs [] true false
          [.jobEv id (.errv e), .callEv (.error e) .notReady]
      | (_, .ready r, _) => .ret (.ready r) [.jobEv id (.errv e), .callEv (.error e) (.ready r)]
      | (_, .err e2, _) => .ret (.err e2) [.jobEv id (.errv e), .callEv (.error e) (.err e2)]
  | .FutStream sc =>
    match pollFut sc with
    | (.ready strm, sc1) =>
      .step s (.FutStream sc1) [] [.Stream strm] true false [.jobEv id .resolved]
    | (.notReady, sc1) => .step s (.FutStream sc1) [] [] false false [.jobEv id .pend]
    | (.err e, sc1) =>
      match S.call s (.error e) with
      | (s1, .notReady, regs) =>
        .step s1 (.FutStream sc1) regs [] true false
          [.jobEv id (.errv e), .callEv (.error e) .notReady]
      | (_, .ready r, _) => .ret (.ready r) [.jobEv id (.errv e), .callEv (.error e) (.ready r)]
      | (_, .err e2, _) => .ret (.err e2) [.jobEv id (.errv e), .callEv (.error e) (.err e2)]
  | .Future sc =>
    match pollFut sc with
    | (.ready v, sc1) =>
      match S.call s (.ok v) with
      | (s1, .notReady, regs) =>
        .step s1 (.Future sc1) regs [] true true
          [.jobEv id (.ok v), .callEv (.ok v) .notReady]
      | (_, .ready r, _) => .ret (.ready r) [.jobEv id (.ok v), .callEv (.ok v) (.ready r)]
      | (_, .err e, _) => .ret (.err e) [.jobEv id (.ok v), .callEv (.ok v) (.err e)]
    | (.notReady, sc1) => .step s (.Future sc1) [] [] false false [.jobEv id .pend]
    | (.err e, sc1) =>
      match S.call s (.error e) with
      | (s1, .notReady, regs) =>
        .step s1 (.Future sc1) regs [] true false
          [.jobEv id (.errv e), .callEv (.error e) .notReady]
      | (_, .ready r, _) => .ret (.ready r) [.jobEv id (.errv e), .callEv (.error e) (.ready r)]
      | (_, .err e2, _) => .ret (.err e2) [.jobEv id (.errv e), .callEv (.error e) (.err e2)]
  | .CtxFuture sc =>
    match pollFut sc with
    | (.ready v, sc1) =>
      match S.call s (.ok v) with
      | (s1, .notReady, regs) =>
        .step s1 (.CtxFuture sc1) regs [] true true
          [.jobEv id (.ok v), .callEv (.ok v) .notReady]
      | (_, .ready r, _) => .ret (.ready r) [.jobEv id (.ok v), .callEv (.ok v) (.ready r)]
      | (_, .err e, _) => .ret (.err e) [.jobEv id (.ok v), .callEv (.ok v) (.err e)]
    | (.notReady, sc1) => .step s (.CtxFuture sc1) [] [] false false [.jobEv id .pend]
    | (.err e, sc1) =>
      match S.call s (.error e) with
      | (s1, .notReady, regs) =>
        .step s1 (.CtxFuture sc1) regs [] true false
          [.jobEv id (.errv e), .callEv (.error e) .notReady]
      | (_, .ready r, _) => .ret (.ready r) [.jobEv id (.errv e), .callEv (.error e) (.ready r)]
      | (_, .err e2, _) => .ret (.err e2) [.jobEv id (.errv e), .callEv (.error e) (.err e2)]
  | .CtxSpawnFuture sc =>
    match pollFut sc with
    | (.ready _, sc1) => .step s (.CtxSpawnFuture sc1) [] [] true true [.jobEv id .spawnDone]
    | (.notReady, sc1) => .step s (.CtxSpawnFuture sc1) [] [] false false [.jobEv id .pend]
    | (.err _, sc1) => .step s (.CtxSpawnFuture sc1) [] [] true false [.jobEv id .spawnErr]

/-- Bookkeeping after one job poll (source lines 482-502): write back the
updated job at `idx`, append registered jobs and then the optional resolved
stream, re-read the length, and on `drop` remove via swap-with-last (pop and
stop the loop when the slot was the last one); otherwise advance the index.
Returns the new context, the next index, and whether the inner loop breaks. -/
def afterPoll {σ I E RI RE : Type} (ctx : Context σ I E RI RE) (idx id : Nat)
    (upd : Item I E RI RE) (regs push : List (Item I E RI RE)) (drop : Bool) :
    Context σ I E RI RE × Nat × Bool :=
  match assignIds ctx.nextId regs with
  | (regs1, n1) =>
    match assignIds n1 push with
    | (push1, n2) =>
      let items1 := ctx.items.set idx (id, upd) ++ regs1 ++ push1
      if drop then
        if idx ≥ items1.length - 1 then
          ({ ctx with items := items1.dropLast, nextId := n2 }, idx, true)
        else
          ({ ctx with
              items := items1.dropLast.set idx (items1.getLast?.getD (id, upd)),
              nextId := n2 }, idx, false)
      else
        ({ ctx with items := items1, nextId := n2 }, idx + 1, false)

/-- Prepend events to the trace of an inner-loop result. -/
def InnerRes.push {σ I E RI RE : Type} (evs : List (Event I E RI RE)) :
    InnerRes σ I E RI RE → InnerRes σ I E RI RE
  | .term t tr => .term t (evs ++ tr)
  | .cont c nr tr => .cont c nr (evs ++ tr)
  | .fuelOut tr => .fuelOut (evs ++ tr)

/-- The inner job loop (source lines 377-503): iterate by index while the
index is below the current length, polling each job, handling immediate
definitive returns, and performing the swap-remove compaction. -/
def innerLoop {σ I E RI RE : Type} (S : Service σ I E RI RE) :
    Nat → Context σ I E RI RE → Nat → Bool → InnerRes σ I E RI RE
  | 0, _, _, _ => .fuelOut []
  | fuel + 1, ctx, idx, nr =>
    match ctx.items[idx]? with
    | none => .cont ctx nr []
    | some (id, job) =>
      match pollJob S ctx.srvSt id job with
      | .ret t evs => .term t evs
      | .step s1 upd regs push drop prog evs =>
        match afterPoll { ctx with srvSt := s1 } idx id upd regs push drop with
        | (ctx1, idx1, broke) =>
          let nr1 := nr && !prog
          if broke then .cont ctx1 nr1 evs
          else (innerLoop S fuel ctx1 idx1 nr1).push evs

/-- One iteration of the outer loop (source lines 349-503): poll the primary
stream once, forward its outcome to `call`/`finished` (returning immediately
on a definitive response), then run the inner job loop.  Only a produced item
clears the `not_ready` flag. -/
def sweepOnce {σ I E RI RE : Type} (S : Service σ I E RI RE) (innerFuel : Nat)
    (ctx : Context σ I E RI RE) : InnerRes σ I E RI RE :=
  match pollStream ctx.stream with
  | (p, s1) =>
    let ctx0 := { ctx with stream := s1 }
    match p with
    | .ready v =>
      match S.call ctx0.srvSt (.ok v) with
      | (s2, .notReady, regs) =>
        (innerLoop S innerFuel (addItems { ctx0 with srvSt := s2 } regs) 0 false).push
          [.streamEv (.ready v), .callEv (.ok v) .notReady]
      | (_, .ready r, _) => .term (.ready r) [.streamEv (.ready v), .callEv (.ok v) (.ready r)]
      | (_, .err e, _) => .term (.err e) [.streamEv (.ready v), .callEv (.ok v) (.err e)]
    | .done =>
      match S.finished ctx0.srvSt with
      | (s2, .notReady, regs) =>
        (innerLoop S innerFuel (addItems { ctx0 with srvSt := s2 } regs) 0 true).push
          [.streamEv .done, .finishedEv .notReady]
      | (_, .ready r, _) => .term (.ready r) [.streamEv .done, .finishedEv (.ready r)]
      | (_, .err e, _) => .term (.err e) [.streamEv .done, .finishedEv (.err e)]
    | .notReady => (innerLoop S innerFuel ctx0 0 true).push [.streamEv .notReady]
    | .err e =>
      match S.call ctx0.srvSt (.error e) with
      | (s2, .notReady, regs) =>
        (innerLoop S innerFuel (addItems { ctx0 with srvSt := s2 } regs) 0 true).push
          [.streamEv (.err e), .callEv (.error e) .notReady]
      | (_, .ready r, _) => .term (.ready r) [.streamEv (.err e), .callEv (.error e) (.ready r)]
      | (_, .err e2, _) => .term (.err e2) [.streamEv (.err e), .callEv (.error e) (.err e2)]

/-- The outer loop: run sweeps until one makes no progress (suspend with
`notReady`) or a definitive result is produced. -/
def pollLoop {σ I E RI RE : Type} (S : Service σ I E RI RE) :
    Nat → Nat → Context σ I E RI RE → PollRes σ I E RI RE × List (Event I E RI RE)
  | 0, _, _ => (.outOfFuel, [])
  | f + 1, g, ctx =>
    match sweepOnce S g ctx with
    | .term t tr => (.term t, tr)
    | .fuelOut tr => (.outOfFuel, tr)
    | .cont ctx1 nr tr =>
      if nr then (.notReady ctx1, tr)
      else
        match pollLoop S f g ctx1 with
        | (r, tr2) => (r, tr ++ tr2)

/-- The engine poll entry point (source lines 337-510): flip the started flag
and invoke `start` on the first poll, then run the outer loop. -/
def Context.poll {σ I E RI RE : Type} (S : Service σ I E RI RE) (f g : Nat)
    (ctx : Context σ I E RI RE) : PollRes σ I E RI RE × List (Event I E RI RE) :=
  if ctx.started then pollLoop S f g ctx
  else
    match S.start ctx.srvSt with
    | (s1, regs) =>
      match pollLoop S f g (addItems { ctx with srvSt := s1, started := true } regs) with
      | (r, tr) => (r, .startEv :: tr)

/-- Event classifiers used by the claims. -/
def isFinishedEv {I E RI RE : Type} : Event I E RI RE → Bool
  | .finishedEv _ => true
  | _ => false

/-- The primary stream reported exhaustion. -/
def isDoneEv {I E RI RE : Type} : Event I E RI RE → Bool
  | .streamEv .done => true
  | _ => false

/-- Progress as the source tracks it: `not_ready = false` is assigned exactly
when the primary stream produced an item, or a stream/future/context-future
job produced an `Ok` value, or a spawned job completed. -/
def isProgressEv {I E RI RE : Type} : Event I E RI RE → Bool
  | .streamEv (.ready _) => true
  | .jobEv _ (.ok _) => true
  | .jobEv _ .spawnDone => true
  | _ => false

/-- Event that records a poll of the job with ghost id `id`. -/
def isJobEvFor {I E RI RE : Type} (id : Nat) : Event I E RI RE → Bool
  | .jobEv i _ => i == id
  | _ => false

/-- Map a callback response to the definitive result it forces, if any. -/
def Poll.toTerm {RI RE : Type} : Poll RI RE → Option (Term RI RE)
  | .notReady => none
  | .ready r => some (.ready r)
  | .err e => some (.err e)

/-- Events that force immediate termination of the engine with a definitive
result: a definitive `call`/`finished` response, or a sink job yielding a
value or error of the result type. -/
def evTerm {I E RI RE : Type} : Event I E RI RE → Option (Term RI RE)
  | .callEv _ resp => resp.toTerm
  | .finishedEv resp => resp.toTerm
  | .jobEv _ (.sinkVal r) => some (.ready r)
  | .jobEv _ (.sinkErr e) => some (.err e)
  | _ => none

/-- Events emitted by one job poll step. -/
def JobStep.evs {σ I E RI RE : Type} : JobStep σ I E RI RE → List (Event I E RI RE)
  | .ret _ evs => evs
  | .step _ _ _ _ _ _ evs => evs

/-- No event of the trace forces termination. -/
def noTermEvs {I E RI RE : Type} (tr : List (Event I E RI RE)) : Prop :=
  ∀ e ∈ tr, evTerm e = none

/-- The trace ends with an event forcing termination with result `t`, and no
earlier event forces termination. -/
def TrOkSome {I E RI RE : Type} (tr : List (Event I E RI RE)) (t : Term RI RE) : Prop :=
  noTermEvs tr.dropLast ∧ ∃ e, tr.getLast? = some e ∧ evTerm e = some t

/-- Soundness of a trace with respect to an inner-loop result: a definitive
event may appear only as the final event of a terminating run, and its value
is the returned result. -/
def InnerOk {σ I E RI RE : Type} : InnerRes σ I E RI RE → Prop
  | .term t tr => TrOkSome tr t
  | .cont _ _ tr => noTermEvs tr
  | .fuelOut tr => noTermEvs tr

/-- The trace carried by an inner-loop result. -/
def InnerRes.tr {σ I E RI RE : Type} : InnerRes σ I E RI RE → List (Event I E RI RE)
  | .term _ tr => tr
  | .cont _ _ tr => tr
  | .fuelOut tr => tr

/-- Soundness of a trace with respect to a poll result. -/
def PollOk {σ I E RI RE : Type} (r : PollRes σ I E RI RE)
    (tr : List (Event I E RI RE)) : Prop :=
  match r with
  | .term t => TrOkSome tr t
  | _ => noTermEvs tr

/-- The expected trace of draining a list of primary items through a service
that always answers "not yet done". -/
def primaryTrace {E RI RE : Type} {I : Type} : List I → List (Event I E RI RE)
  | [] => []
  | v :: rest => .streamEv (.ready v) :: .callEv (.ok v) .notReady :: primaryTrace rest

/-- A service that ignores everything and never finishes: used to instantiate
universally quantified theorems on concrete engines. -/
def trivialService : Service Unit Nat Nat Nat Nat :=
  { start := fun s => (s, [])
    call := fun s _ => (s, .notReady, [])
    finished := fun s => (s, .notReady, []) }

/-- A service whose `call` immediately returns a definitive result. -/
def haltingService : Service Unit Nat Nat Nat Nat :=
  { start := fun s => (s, [])
    call := fun s _ => (s, .ready 5, [])
    finished := fun s => (s, .notReady, []) }

/-- A service that registers a plain-task job whenever `call` receives the
item `1`: used to exercise the reentrant registration path. -/
def registeringService : Service Unit Nat Nat Nat Nat :=
  { start := fun s => (s, [])
    call := fun s a =>
      match a with
      | .ok 1 => (s, .notReady, [.Future [.ready 50]])
      | _ => (s, .notReady, [])
    finished := fun s => (s, .notReady, []) }

/-! ### List helper lemmas -/

theorem dropLast_drop_comm {α : Type} :
    ∀ (l : List α) (n : Nat), (l.drop n).dropLast = l.dropLast.drop n := by
  intro l
  induction l with
  | nil => intro n; simp
  | cons a t ih =>
    intro n
    cases n with
    | zero => simp
    | succ m =>
      cases t with
      | nil => simp
      | cons b t2 =>
        simpa [List.dropLast_cons₂] using ih m

theorem getLast?_drop_of_lt {α : Type} :
    ∀ (l : List α) (n : Nat), n < l.length → (l.drop n).getLast? = l.getLast? := by
  intro l
  induction l with
  | nil => intro n h; simp at h
  | cons a t ih =>
    intro n h
    cases n with
    | zero => simp
    | succ m =>
      have hm : m < t.length := by simpa using h
      cases t with
      | nil => simp at hm
      | cons b t2 => simpa using ih m hm

theorem drop_set_self {α : Type} (l : List α) (i : Nat) (a : α) (h : i < l.length) :
    (l.set i a).drop i = a :: l.drop (i + 1) := by
  rw [List.drop_set, if_neg (lt_irrefl i), Nat.sub_self,
    List.drop_eq_getElem_cons h, List.set_cons_zero]

theorem drop_set_past {α : Type} (l : List α) (i n : Nat) (a : α) (h : i < n) :
    (l.set i a).drop n = l.drop n := by
  rw [List.drop_set, if_pos h]

theorem assignIds_snd {I E RI RE : Type} :
    ∀ (js : List (Item I E RI RE)) (n : Nat), (assignIds n js).2 = n + js.length := by
  intro js
  induction js with
  | nil => intro n; simp [assignIds]
  | cons j t ih =>
    intro n
    have := ih (n + 1)
    simp only [assignIds]
    rw [show assignIds (n + 1) t = ((assignIds (n + 1) t).1, (assignIds (n + 1) t).2) from rfl]
    simp [this]
    omega

theorem assignIds_bounds {I E RI RE : Type} :
    ∀ (js : List (Item I E RI RE)) (n : Nat) (p : Nat × Item I E RI RE),
      p ∈ (assignIds n js).1 → n ≤ p.1 ∧ p.1 < n + js.length := by
  intro js
  induction js with
  | nil => intro n p hp; simp [assignIds] at hp
  | cons j t ih =>
    intro n p hp
    simp only [assignIds] at hp
    rw [show assignIds (n + 1) t = ((assignIds (n + 1) t).1, (assignIds (n + 1) t).2) from rfl]
      at hp
    simp at hp
    rcases hp with hp | hp
    · simp [hp]
    · have h := ih (n + 1) p hp
      simp only [List.length_cons]
      omega

theorem assignIds_countP {I E RI RE : Type} :
    ∀ (js : List (Item I E RI RE)) (n id : Nat),
      ((assignIds n js).1).countP (fun p => p.1 == id) =
        if n ≤ id ∧ id < n + js.length then 1 else 0 := by
  intro js
  induction js with
  | nil =>
    intro n id
    simp only [assignIds, List.countP_nil, List.length_nil, Nat.add_zero]
    rw [if_neg (by omega)]
  | cons j t ih =>
    intro n id
    simp only [assignIds]
    rw [show assignIds (n + 1) t = ((assignIds (n + 1) t).1, (assignIds (n + 1) t).2) from rfl]
    simp only [List.countP_cons, ih (n + 1) id, List.length_cons]
    by_cases hn : n = id <;> by_cases h2 : n + 1 ≤ id ∧ id < n + 1 + t.length <;>
      simp [hn, h2] <;> split <;> omega
theorem pollJob_spec {σ I E RI RE : Type} (S : Service σ I E RI RE) (s : σ) (id : Nat)
    (j : Item I E RI RE) :
    (∀ id2, (pollJob S s id j).evs.countP (isJobEvFor id2) = if id = id2 then 1 else 0) ∧
    (∀ x ∈ (pollJob S s id j).evs, isFinishedEv x = false ∧ isDoneEv x = false) ∧
    (match pollJob S s id j with
     | .ret t evs => TrOkSome evs t
     | .step _ _ _ _ _ prog evs =>
         noTermEvs evs ∧ evs.countP isProgressEv = if prog then 1 else 0) := by
  cases j with
  | Sink sc =>
    rcases sc with _ | ⟨p, r⟩
    · refine ⟨?_, ?_, ?_⟩ <;>
        simp [pollJob, pollFut, JobStep.evs, TrOkSome, noTermEvs, evTerm, Poll.toTerm,
          isJobEvFor, isFinishedEv, isDoneEv, isProgressEv, List.countP_cons]
    · cases p <;> (refine ⟨?_, ?_, ?_⟩ <;>
        simp [pollJob, pollFut, JobStep.evs, TrOkSome, noTermEvs, evTerm, Poll.toTerm,
          isJobEvFor, isFinishedEv, isDoneEv, isProgressEv, List.countP_cons])
  | CtxSpawnFuture sc =>
    rcases sc with _ | ⟨p, r⟩
    · refine ⟨?_, ?_, ?_⟩ <;>
        simp [pollJob, pollFut, JobStep.evs, TrOkSome, noTermEvs, evTerm, Poll.toTerm,
          isJobEvFor, isFinishedEv, isDoneEv, isProgressEv, List.countP_cons]
    · cases p <;> (refine ⟨?_, ?_, ?_⟩ <;>
        simp [pollJob, pollFut, JobStep.evs, TrOkSome, noTermEvs, evTerm, Poll.toTerm,
          isJobEvFor, isFinishedEv, isDoneEv, isProgressEv, List.countP_cons])
  | FutStream sc =>
    rcases sc with _ | ⟨p, r⟩
    · refine ⟨?_, ?_, ?_⟩ <;>
        simp [pollJob, pollFut, JobStep.evs, TrOkSome, noTermEvs, evTerm, Poll.toTerm,
          isJobEvFor, isFinishedEv, isDoneEv, isProgressEv, List.countP_cons]
    · cases p with
      | ready strm =>
        refine ⟨?_, ?_, ?_⟩ <;>
          simp [pollJob, pollFut, JobStep.evs, TrOkSome, noTermEvs, evTerm, Poll.toTerm,
            isJobEvFor, isFinishedEv, isDoneEv, isProgressEv, List.countP_cons]
      | notReady =>
        refine ⟨?_, ?_, ?_⟩ <;>
          simp [pollJob, pollFut, JobStep.evs, TrOkSome, noTermEvs, evTerm, Poll.toTerm,
            isJobEvFor, isFinishedEv, isDoneEv, isProgressEv, List.countP_cons]
      | err e =>
        rcases hc : S.call s (Except.error e) with ⟨s1, resp, regs⟩
        cases resp <;> (refine ⟨?_, ?_, ?_⟩ <;>
          simp [pollJob, pollFut, hc, JobStep.evs, TrOkSome, noTermEvs, evTerm, Poll.toTerm,
            isJobEvFor, isFinishedEv, isDoneEv, isProgressEv, List.countP_cons])
  | Future sc =>
    rcases sc with _ | ⟨p, r⟩
    · refine ⟨?_, ?_, ?_⟩ <;>
        simp [pollJob, pollFut, JobStep.evs, TrOkSome, noTermEvs, evTerm, Poll.toTerm,
          isJobEvFor, isFinishedEv, isDoneEv, isProgressEv, List.countP_cons]
    · cases p with
      | ready v =>
        rcases hc : S.call s (Except.ok v) with ⟨s1, resp, regs⟩
        cases resp <;> (refine ⟨?_, ?_, ?_⟩ <;>
          simp [pollJob, pollFut, hc, JobStep.evs, TrOkSome, noTermEvs, evTerm, Poll.toTerm,
            isJobEvFor, isFinishedEv, isDoneEv, isProgressEv, List.countP_cons])
      | notReady =>
        refine ⟨?_, ?_, ?_⟩ <;>
          simp [pollJob, pollFut, JobStep.evs, TrOkSome, noTermEvs, evTerm, Poll.toTerm,
            isJobEvFor, isFinishedEv, isDoneEv, isProgressEv, List.countP_cons]
      | err e =>
        rcases hc : S.call s (Except.error e) with ⟨s1, resp, regs⟩
        cases resp <;> (refine ⟨?_, ?_, ?_⟩ <;>
          simp [pollJob, pollFut, hc, JobStep.evs, TrOkSome, noTermEvs, evTerm, Poll.toTerm,
            isJobEvFor, isFinishedEv, isDoneEv, isProgressEv, List.countP_cons])
  | CtxFuture sc =>
    rcases sc with _ | ⟨p, r⟩
    · refine ⟨?_, ?_, ?_⟩ <;>
        simp [pollJob, pollFut, JobStep.evs, TrOkSome, noTermEvs, evTerm, Poll.toTerm,
          isJobEvFor, isFinishedEv, isDoneEv, isProgressEv, List.countP_cons]
    · cases p with
      | ready v =>
        rcases hc : S.call s (Except.ok v) with ⟨s1, resp, regs⟩
        cases resp <;> (refine ⟨?_, ?_, ?_⟩ <;>
          simp [pollJob, pollFut, hc, JobStep.evs, TrOkSome, noTermEvs, evTerm, Poll.toTerm,
            isJobEvFor, isFinishedEv, isDoneEv, isProgressEv, List.countP_cons])
      | notReady =>
        refine ⟨?_, ?_, ?_⟩ <;>
          simp [pollJob, pollFut, JobStep.evs, TrOkSome, noTermEvs, evTerm, Poll.toTerm,
            isJobEvFor, isFinishedEv, isDoneEv, isProgressEv, List.countP_cons]
      | err e =>
        rcases hc : S.call s (Except.error e) with ⟨s1, resp, regs⟩
        cases resp <;> (refine ⟨?_, ?_, ?_⟩ <;>
          simp [pollJob, pollFut, hc, JobStep.evs, TrOkSome, noTermEvs, evTerm, Poll.toTerm,
            isJobEvFor, isFinishedEv, isDoneEv, isProgressEv, List.countP_cons])
  | Stream sc =>
    rcases sc with _ | ⟨p, r⟩
    · refine ⟨?_, ?_, ?_⟩ <;>
        simp [pollJob, pollStream, JobStep.evs, TrOkSome, noTermEvs, evTerm, Poll.toTerm,
          isJobEvFor, isFinishedEv, isDoneEv, isProgressEv, List.countP_cons]
    · cases p with
      | ready v =>
        rcases hc : S.call s (Except.ok v) with ⟨s1, resp, regs⟩
        cases resp <;> (refine ⟨?_, ?_, ?_⟩ <;>
          simp [pollJob, pollStream, hc, JobStep.evs, TrOkSome, noTermEvs, evTerm, Poll.toTerm,
            isJobEvFor, isFinishedEv, isDoneEv, isProgressEv, List.countP_cons])
      | done =>
        refine ⟨?_, ?_, ?_⟩ <;>
          simp [pollJob, pollStream, JobStep.evs, TrOkSome, noTermEvs, evTerm, Poll.toTerm,
            isJobEvFor, isFinishedEv, isDoneEv, isProgressEv, List.countP_cons]
      | notReady =>
        refine ⟨?_, ?_, ?_⟩ <;>
          simp [pollJob, pollStream, JobStep.evs, TrOkSome, noTermEvs, evTerm, Poll.toTerm,
            isJobEvFor, isFinishedEv, isDoneEv, isProgressEv, List.countP_cons]
      | err e =>
        rcases hc : S.call s (Except.error e) with ⟨s1, resp, regs⟩
        cases resp <;> (refine ⟨?_, ?_, ?_⟩ <;>
          simp [pollJob, pollStream, hc, JobStep.evs, TrOkSome, noTermEvs, evTerm, Poll.toTerm,
            isJobEvFor, isFinishedEv, isDoneEv, isProgressEv, List.countP_cons])
theorem noTermEvs_nil {I E RI RE : Type} : noTermEvs ([] : List (Event I E RI RE)) := by
  intro e he
  simp at he

theorem noTermEvs_append {I E RI RE : Type} {a b : List (Event I E RI RE)}
    (ha : noTermEvs a) (hb : noTermEvs b) : noTermEvs (a ++ b) := by
  intro e he
  rcases List.mem_append.1 he with h | h
  · exact ha e h
  · exact hb e h

theorem trOkSome_prepend {I E RI RE : Type} {a b : List (Event I E RI RE)} {t : Term RI RE}
    (ha : noTermEvs a) (hb : TrOkSome b t) : TrOkSome (a ++ b) t := by
  obtain ⟨h1, e, he, het⟩ := hb
  have hbne : b ≠ [] := by rintro rfl; simp at he
  refine ⟨?_, e, ?_, het⟩
  · rw [List.dropLast_append_of_ne_nil _ hbne]
    exact noTermEvs_append ha h1
  · simp [List.getLast?_append, he]

theorem innerLoop_trOk {σ I E RI RE : Type} (S : Service σ I E RI RE) :
    ∀ (fuel : Nat) (ctx : Context σ I E RI RE) (idx : Nat) (nr : Bool),
      (∀ t tr, innerLoop S fuel ctx idx nr = .term t tr → TrOkSome tr t) ∧
      (∀ c nr2 tr, innerLoop S fuel ctx idx nr = .cont c nr2 tr → noTermEvs tr) ∧
      (∀ tr, innerLoop S fuel ctx idx nr = .fuelOut tr → noTermEvs tr) := by
  intro fuel
  induction fuel with
  | zero =>
    intro ctx idx nr
    refine ⟨fun t2 tr h => ?_, fun c nr2 tr h => ?_, fun tr h => ?_⟩ <;>
      simp only [innerLoop] at h
    · exact InnerRes.noConfusion h
    · exact InnerRes.noConfusion h
    · injection h with h1
      subst h1
      exact noTermEvs_nil
  | succ fuel ih =>
    intro ctx idx nr
    rcases hit : ctx.items[idx]? with _ | ⟨id, job⟩
    · refine ⟨fun t2 tr h => ?_, fun c nr2 tr h => ?_, fun tr h => ?_⟩ <;>
        simp only [innerLoop, hit] at h
      · exact InnerRes.noConfusion h
      · injection h with h1 h2 h3
        subst h3
        exact noTermEvs_nil
      · exact InnerRes.noConfusion h
    · rcases hp : pollJob S ctx.srvSt id job with ⟨t, evs⟩ | ⟨s1, upd, regs, push, drop, prog, evs⟩
      · have hspec := (pollJob_spec S ctx.srvSt id job).2.2
        rw [hp] at hspec
        refine ⟨fun t2 tr h => ?_, fun c nr2 tr h => ?_, fun tr h => ?_⟩ <;>
          simp only [innerLoop, hit, hp] at h
        · injection h with h1 h2
          subst h1
          subst h2
          exact hspec
        · exact InnerRes.noConfusion h
        · exact InnerRes.noConfusion h
      · have hspec := (pollJob_spec S ctx.srvSt id job).2.2
        rw [hp] at hspec
        obtain ⟨hnone, _⟩ := hspec
        rcases ha : afterPoll { ctx with srvSt := s1 } idx id upd regs push drop with
          ⟨ctx1, idx1, broke⟩
        obtain ⟨iht, ihc, ihf⟩ := ih ctx1 idx1 (nr && !prog)
        cases broke
        · refine ⟨fun t2 tr h => ?_, fun c nr2 tr h => ?_, fun tr h => ?_⟩ <;>
            simp only [innerLoop, hit, hp, ha, Bool.false_eq_true, if_false] at h <;>
            rcases hr : innerLoop S fuel ctx1 idx1 (nr && !prog) with
              ⟨t3, tr3⟩ | ⟨c3, nr3, tr3⟩ | ⟨tr3⟩ <;>
            rw [hr] at h <;> simp only [InnerRes.push] at h <;>
            first
              | exact InnerRes.noConfusion h
              | skip
          · injection h with h1 h2
            subst h1
            subst h2
            exact trOkSome_prepend hnone (iht _ _ hr)
          · injection h with h1 h2 h3
            subst h3
            exact noTermEvs_append hnone (ihc _ _ _ hr)
          · injection h with h1
            subst h1
            exact noTermEvs_append hnone (ihf _ hr)
        · refine ⟨fun t2 tr h => ?_, fun c nr2 tr h => ?_, fun tr h => ?_⟩ <;>
            simp only [innerLoop, hit, hp, ha, if_true] at h
          · exact InnerRes.noConfusion h
          · injection h with h1 h2 h3
            subst h3
            exact hnone
          · exact InnerRes.noConfusion h
theorem innerOk_push {σ I E RI RE : Type} {r : InnerRes σ I E RI RE}
    {evs : List (Event I E RI RE)} (hevs : noTermEvs evs) (hr : InnerOk r) :
    InnerOk (r.push evs) := by
  cases r with
  | term t tr => exact trOkSome_prepend hevs hr
  | cont c nr tr => exact noTermEvs_append hevs hr
  | fuelOut tr => exact noTermEvs_append hevs hr

theorem innerLoop_innerOk {σ I E RI RE : Type} (S : Service σ I E RI RE)
    (fuel : Nat) (ctx : Context σ I E RI RE) (idx : Nat) (nr : Bool) :
    InnerOk (innerLoop S fuel ctx idx nr) := by
  obtain ⟨h1, h2, h3⟩ := innerLoop_trOk S fuel ctx idx nr
  rcases hr : innerLoop S fuel ctx idx nr with ⟨t, tr⟩ | ⟨c, nr2, tr⟩ | tr
  · exact h1 _ _ hr
  · exact h2 _ _ _ hr
  · exact h3 _ hr

theorem sweepOnce_innerOk {σ I E RI RE : Type} (S : Service σ I E RI RE)
    (g : Nat) (ctx : Context σ I E RI RE) : InnerOk (sweepOnce S g ctx) := by
  rcases hs : ctx.stream with _ | ⟨p, s1⟩
  · simp only [sweepOnce, hs, pollStream]
    exact innerOk_push (by simp [noTermEvs, evTerm]) (innerLoop_innerOk S g _ 0 true)
  · cases p with
    | ready v =>
      rcases hc : S.call ctx.srvSt (Except.ok v) with ⟨s2, resp, regs⟩
      cases resp <;> simp only [sweepOnce, hs, pollStream, hc] <;>
        first
          | exact innerOk_push (by simp [noTermEvs, evTerm, Poll.toTerm])
              (innerLoop_innerOk S g _ 0 false)
          | simp [InnerOk, TrOkSome, noTermEvs, evTerm, Poll.toTerm]
    | done =>
      rcases hc : S.finished ctx.srvSt with ⟨s2, resp, regs⟩
      cases resp <;> simp only [sweepOnce, hs, pollStream, hc] <;>
        first
          | exact innerOk_push (by simp [noTermEvs, evTerm, Poll.toTerm])
              (innerLoop_innerOk S g _ 0 true)
          | simp [InnerOk, TrOkSome, noTermEvs, evTerm, Poll.toTerm]
    | notReady =>
      simp only [sweepOnce, hs, pollStream]
      exact innerOk_push (by simp [noTermEvs, evTerm]) (innerLoop_innerOk S g _ 0 true)
    | err e =>
      rcases hc : S.call ctx.srvSt (Except.error e) with ⟨s2, resp, regs⟩
      cases resp <;> simp only [sweepOnce, hs, pollStream, hc] <;>
        first
          | exact innerOk_push (by simp [noTermEvs, evTerm, Poll.toTerm])
              (innerLoop_innerOk S g _ 0 true)
          | simp [InnerOk, TrOkSome, noTermEvs, evTerm, Poll.toTerm]

theorem pollOk_prepend {σ I E RI RE : Type} {r : PollRes σ I E RI RE}
    {a b : List (Event I E RI RE)} (ha : noTermEvs a) (hr : PollOk r b) :
    PollOk r (a ++ b) := by
  cases r with
  | term t => exact trOkSome_prepend ha hr
  | notReady c => exact noTermEvs_append ha hr
  | outOfFuel => exact noTermEvs_append ha hr

theorem pollLoop_pollOk {σ I E RI RE : Type} (S : Service σ I E RI RE) :
    ∀ (f g : Nat) (ctx : Context σ I E RI RE),
      PollOk (pollLoop S f g ctx).1 (pollLoop S f g ctx).2 := by
  intro f
  induction f with
  | zero =>
    intro g ctx
    simp only [pollLoop]
    exact noTermEvs_nil
  | succ f ihf =>
    intro g ctx
    have hso := sweepOnce_innerOk S g ctx
    rcases hsw : sweepOnce S g ctx with ⟨t, tr⟩ | ⟨c, nr, tr⟩ | tr <;> rw [hsw] at hso <;>
      simp only [InnerOk] at hso <;> simp only [pollLoop, hsw]
    · exact hso
    · cases nr with
      | true => simpa only [if_true] using hso
      | false =>
        simp only [Bool.false_eq_true, if_false]
        rcases hrec : pollLoop S f g c with ⟨r, tr2⟩
        have hih := ihf g c
        rw [hrec] at hih
        exact pollOk_prepend hso hih
    · exact hso

theorem poll_pollOk {σ I E RI RE : Type} (S : Service σ I E RI RE)
    (f g : Nat) (ctx : Context σ I E RI RE) :
    PollOk (Context.poll S f g ctx).1 (Context.poll S f g ctx).2 := by
  by_cases hst : ctx.started
  · simp only [Context.poll, hst, if_true]
    exact pollLoop_pollOk S f g ctx
  · rcases hS : S.start ctx.srvSt with ⟨s1, regs⟩
    simp only [Context.poll, hst, Bool.false_eq_true, if_false, hS]
    rcases hrec : pollLoop S f g (addItems { ctx with srvSt := s1, started := true } regs) with
      ⟨r, tr⟩
    have hih := pollLoop_pollOk S f g (addItems { ctx with srvSt := s1, started := true } regs)
    rw [hrec] at hih
    have : (Event.startEv :: tr : List (Event I E RI RE)) = [Event.startEv] ++ tr := rfl
    rw [this]
    exact pollOk_prepend (by simp [noTermEvs, evTerm]) hih

theorem noTermEvs_split {I E RI RE : Type} {tr pre post : List (Event I E RI RE)}
    {e : Event I E RI RE} {t : Term RI RE}
    (h : noTermEvs tr) (hsp : tr = pre ++ e :: post) (ht : evTerm e = some t) : False := by
  have hmem : e ∈ tr := by rw [hsp]; simp
  have := h e hmem
  rw [ht] at this
  exact Option.noConfusion this

theorem trOkSome_split {I E RI RE : Type} {tr pre post : List (Event I E RI RE)}
    {e : Event I E RI RE} {t t2 : Term RI RE}
    (h : TrOkSome tr t2) (hsp : tr = pre ++ e :: post) (ht : evTerm e = some t) :
    post = [] ∧ t2 = t := by
  obtain ⟨h1, e2, he2, het2⟩ := h
  rcases hpost : post with _ | ⟨q, post2⟩
  · subst hpost
    refine ⟨rfl, ?_⟩
    rw [hsp, show (e :: [] : List (Event I E RI RE)) = [e] from rfl,
      List.getLast?_concat] at he2
    injection he2 with h3
    subst h3
    rw [het2] at ht
    exact Option.some_inj.1 ht
  · exfalso
    have hmem : e ∈ tr.dropLast := by
      rw [hsp, hpost, List.dropLast_append_cons]
      simp
    have := h1 e hmem
    rw [ht] at this
    exact Option.noConfusion this

/-- C2: whenever `call` or `finished` returns a definitive Result, the
engine's poll returns exactly that Result immediately: the definitive
response event is the last event of the trace, so no further poll of the
primary sequence and no poll of any remaining job occurs after it,
regardless of which jobs were ready. -/
theorem definitive_callback_result_is_final {σ I E RI RE : Type}
    (S : Service σ I E RI RE) (f g : Nat) (ctx : Context σ I E RI RE)
    (res : PollRes σ I E RI RE) (tr pre post : List (Event I E RI RE))
    (arg : Except E I) (resp : Poll RI RE) (t : Term RI RE)
    (hrun : Context.poll S f g ctx = (res, tr))
    (hsplit : tr = pre ++ Event.callEv arg resp :: post ∨
      tr = pre ++ Event.finishedEv resp :: post)
    (ht : resp.toTerm = some t) :
    post = [] ∧ res = PollRes.term t := by
  have hok := poll_pollOk S f g ctx
  rw [hrun] at hok
  have hev : ∃ e : Event I E RI RE, tr = pre ++ e :: post ∧ evTerm e = some t := by
    rcases hsplit with h | h
    · exact ⟨_, h, by simp [evTerm, ht]⟩
    · exact ⟨_, h, by simp [evTerm, ht]⟩
  obtain ⟨e, hsp, het⟩ := hev
  cases res with
  | term t2 =>
    obtain ⟨h1, h2⟩ := trOkSome_split hok hsp het
    exact ⟨h1, by rw [h2]⟩
  | notReady c => exact (noTermEvs_split hok hsp het).elim
  | outOfFuel => exact (noTermEvs_split hok hsp het).elim

/-- Witness for C2 on a concrete engine whose `call` answers with the
definitive result `5` on the first item. -/
theorem definitive_callback_result_is_final_witness :
    Context.poll haltingService 2 2 ⟨(), false, [StreamPoll.ready 1], [], 0⟩ =
      (PollRes.term (Term.ready 5),
        [Event.startEv, Event.streamEv (StreamPoll.ready 1),
          Event.callEv (Except.ok 1) (Poll.ready 5)]) ∧
    (([] : List (Event Nat Nat Nat Nat)) = [] ∧
      (PollRes.term (Term.ready 5) : PollRes Unit Nat Nat Nat Nat) =
        PollRes.term (Term.ready 5)) :=
  ⟨by decide,
    definitive_callback_result_is_final haltingService 2 2
      ⟨(), false, [StreamPoll.ready 1], [], 0⟩ (PollRes.term (Term.ready 5))
      [Event.startEv, Event.streamEv (StreamPoll.ready 1),
        Event.callEv (Except.ok 1) (Poll.ready 5)]
      [Event.startEv, Event.streamEv (StreamPoll.ready 1)] []
      (Except.ok 1) (Poll.ready 5) (Term.ready 5)
      (by decide) (Or.inl (by decide)) (by decide)⟩
theorem innerLoop_flag {σ I E RI RE : Type} (S : Service σ I E RI RE) :
    ∀ (fuel : Nat) (ctx : Context σ I E RI RE) (idx : Nat) (nr : Bool)
      (c : Context σ I E RI RE) (nr2 : Bool) (tr : List (Event I E RI RE)),
      innerLoop S fuel ctx idx nr = .cont c nr2 tr →
      (nr2 = true ↔ (nr = true ∧ tr.countP isProgressEv = 0)) := by
  intro fuel
  induction fuel with
  | zero =>
    intro ctx idx nr c nr2 tr h
    simp only [innerLoop] at h
    exact InnerRes.noConfusion h
  | succ fuel ih =>
    intro ctx idx nr c nr2 tr h
    rcases hit : ctx.items[idx]? with _ | ⟨id, job⟩
    · simp only [innerLoop, hit] at h
      injection h with h1 h2 h3
      subst h2
      subst h3
      simp
    · rcases hp : pollJob S ctx.srvSt id job with ⟨t, evs⟩ | ⟨s1, upd, regs, push, drop, prog, evs⟩
      · simp only [innerLoop, hit, hp] at h
        exact InnerRes.noConfusion h
      · have hprog := ((pollJob_spec S ctx.srvSt id job).2.2)
        rw [hp] at hprog
        obtain ⟨_, hprog⟩ := hprog
        rcases ha : afterPoll { ctx with srvSt := s1 } idx id upd regs push drop with
          ⟨ctx1, idx1, broke⟩
        cases broke
        · simp only [innerLoop, hit, hp, ha, Bool.false_eq_true, if_false] at h
          rcases hr : innerLoop S fuel ctx1 idx1 (nr && !prog) with
            ⟨t3, tr3⟩ | ⟨c3, nr3, tr3⟩ | ⟨tr3⟩ <;> rw [hr] at h <;>
            simp only [InnerRes.push] at h
          · exact InnerRes.noConfusion h
          · injection h with h1 h2 h3
            subst h2
            subst h3
            have hih := ih ctx1 idx1 (nr && !prog) c3 nr3 tr3 hr
            cases prog <;> simp_all [List.countP_append]
          · exact InnerRes.noConfusion h
        · simp only [innerLoop, hit, hp, ha, if_true] at h
          injection h with h1 h2 h3
          subst h2
          subst h3
          cases prog <;> simp_all

/-- C4 (amended): a sweep sets the suspend flag (the engine's poll then
returns "not ready") exactly when the sweep made no progress, where progress
means: the primary sequence produced an item, a job produced an `Ok` value
forwarded to `call`, or a spawned task completed.  Job removals, error
deliveries, secondary-sequence exhaustion, primary exhaustion and
deferred-sequence resolution do NOT count as progress. -/
theorem engine_suspends_iff_sweep_no_progress {σ I E RI RE : Type} (S : Service σ I E RI RE) (g : Nat)
    (ctx c : Context σ I E RI RE) (flag : Bool) (tr : List (Event I E RI RE))
    (h : sweepOnce S g ctx = .cont c flag tr) :
    flag = true ↔ tr.countP isProgressEv = 0 := by
  rcases hs : ctx.stream with _ | ⟨p, s1⟩
  · simp only [sweepOnce, hs, pollStream] at h
    rcases hr : innerLoop S g { ctx with stream := [] } 0 true with
      ⟨t3, tr3⟩ | ⟨c3, nr3, tr3⟩ | ⟨tr3⟩ <;> rw [hr] at h <;> simp only [InnerRes.push] at h
    · exact InnerRes.noConfusion h
    · injection h with h1 h2 h3
      subst h2
      subst h3
      have hih := innerLoop_flag S g _ 0 true c3 nr3 tr3 hr
      simp_all [List.countP_cons, isProgressEv]
    · exact InnerRes.noConfusion h
  · cases p with
    | ready v =>
      rcases hc : S.call ctx.srvSt (Except.ok v) with ⟨s2, resp, regs⟩
      cases resp <;> simp only [sweepOnce, hs, pollStream, hc] at h <;>
        try exact InnerRes.noConfusion h
      rcases hr : innerLoop S g (addItems { ctx with stream := s1, srvSt := s2 } regs) 0 false with
        ⟨t3, tr3⟩ | ⟨c3, nr3, tr3⟩ | ⟨tr3⟩ <;> rw [hr] at h <;> simp only [InnerRes.push] at h
      · exact InnerRes.noConfusion h
      · injection h with h1 h2 h3
        subst h2
        subst h3
        have hih := innerLoop_flag S g _ 0 false c3 nr3 tr3 hr
        simp_all [List.countP_cons, isProgressEv]
      · exact InnerRes.noConfusion h
    | done =>
      rcases hc : S.finished ctx.srvSt with ⟨s2, resp, regs⟩
      cases resp <;> simp only [sweepOnce, hs, pollStream, hc] at h <;>
        try exact InnerRes.noConfusion h
      rcases hr : innerLoop S g (addItems { ctx with stream := s1, srvSt := s2 } regs) 0 true with
        ⟨t3, tr3⟩ | ⟨c3, nr3, tr3⟩ | ⟨tr3⟩ <;> rw [hr] at h <;> simp only [InnerRes.push] at h
      · exact InnerRes.noConfusion h
      · injection h with h1 h2 h3
        subst h2
        subst h3
        have hih := innerLoop_flag S g _ 0 true c3 nr3 tr3 hr
        simp_all [List.countP_cons, isProgressEv]
      · exact InnerRes.noConfusion h
    | notReady =>
      simp only [sweepOnce, hs, pollStream] at h
      rcases hr : innerLoop S g { ctx with stream := s1 } 0 true with
        ⟨t3, tr3⟩ | ⟨c3, nr3, tr3⟩ | ⟨tr3⟩ <;> rw [hr] at h <;> simp only [InnerRes.push] at h
      · exact InnerRes.noConfusion h
      · injection h with h1 h2 h3
        subst h2
        subst h3
        have hih := innerLoop_flag S g _ 0 true c3 nr3 tr3 hr
        simp_all [List.countP_cons, isProgressEv]
      · exact InnerRes.noConfusion h
    | err e =>
      rcases hc : S.call ctx.srvSt (Except.error e) with ⟨s2, resp, regs⟩
      cases resp <;> simp only [sweepOnce, hs, pollStream, hc] at h <;>
        try exact InnerRes.noConfusion h
      rcases hr : innerLoop S g (addItems { ctx with stream := s1, srvSt := s2 } regs) 0 true with
        ⟨t3, tr3⟩ | ⟨c3, nr3, tr3⟩ | ⟨tr3⟩ <;> rw [hr] at h <;> simp only [InnerRes.push] at h
      · exact InnerRes.noConfusion h
      · injection h with h1 h2 h3
        subst h2
        subst h3
        have hih := innerLoop_flag S g _ 0 true c3 nr3 tr3 hr
        simp_all [List.countP_cons, isProgressEv]
      · exact InnerRes.noConfusion h

/-- C4 counterexample: a sweep in which a job is removed (a secondary
sequence reports exhaustion and is dropped from the job vector) but the
engine nevertheless returns "not ready" without performing another sweep:
removal alone is not progress in the code. -/
theorem engine_suspends_despite_removal_counterexample :
    Context.poll trivialService 2 2 ⟨(), true, [], [(0, Item.Stream [StreamPoll.done])], 1⟩ =
      (PollRes.notReady ⟨(), true, [], [], 1⟩,
        [Event.streamEv StreamPoll.notReady, Event.jobEv 0 JobRes.streamDone]) := by
  decide

/-- Witness for the amended C4 on a concrete sweep that removes a job and
makes no progress. -/
theorem engine_suspends_iff_sweep_no_progress_witness :
    (sweepOnce trivialService 2 ⟨(), true, [], [(0, Item.Stream [StreamPoll.done])], 1⟩ =
      InnerRes.cont ⟨(), true, [], [], 1⟩ true
        [Event.streamEv StreamPoll.notReady, Event.jobEv 0 JobRes.streamDone]) ∧
    ((true = true) ↔
      (([Event.streamEv StreamPoll.notReady,
        Event.jobEv 0 JobRes.streamDone] : List (Event Nat Nat Nat Nat)).countP
          isProgressEv = 0)) :=
  ⟨by decide,
    engine_suspends_iff_sweep_no_progress trivialService 2
      ⟨(), true, [], [(0, Item.Stream [StreamPoll.done])], 1⟩ ⟨(), true, [], [], 1⟩ true
      [Event.streamEv StreamPoll.notReady, Event.jobEv 0 JobRes.streamDone] (by decide)⟩

theorem InnerRes.tr_push {σ I E RI RE : Type} (r : InnerRes σ I E RI RE)
    (evs : List (Event I E RI RE)) : (r.push evs).tr = evs ++ r.tr := by
  cases r <;> rfl


theorem InnerRes.tr_term {σ I E RI RE : Type} (t : Term RI RE) (tr : List (Event I E RI RE)) :
    (@InnerRes.term σ I E RI RE t tr).tr = tr := rfl

theorem InnerRes.tr_cont {σ I E RI RE : Type} (c : Context σ I E RI RE) (nr : Bool)
    (tr : List (Event I E RI RE)) : (InnerRes.cont c nr tr).tr = tr := rfl

theorem InnerRes.tr_fuelOut {σ I E RI RE : Type} (tr : List (Event I E RI RE)) :
    (@InnerRes.fuelOut σ I E RI RE tr).tr = tr := rfl

theorem innerLoop_tr_counts {σ I E RI RE : Type} (S : Service σ I E RI RE) :
    ∀ (fuel : Nat) (ctx : Context σ I E RI RE) (idx : Nat) (nr : Bool),
      ((innerLoop S fuel ctx idx nr).tr).countP isFinishedEv = 0 ∧
      ((innerLoop S fuel ctx idx nr).tr).countP isDoneEv = 0 := by
  intro fuel
  induction fuel with
  | zero => intro ctx idx nr; simp [innerLoop, InnerRes.tr_fuelOut]
  | succ fuel ih =>
    intro ctx idx nr
    rcases hit : ctx.items[idx]? with _ | ⟨id, job⟩
    · simp [innerLoop, hit, InnerRes.tr_cont]
    · have hjs := (pollJob_spec S ctx.srvSt id job).2.1
      rcases hp : pollJob S ctx.srvSt id job with ⟨t, evs⟩ | ⟨s1, upd, regs, push, drop, prog, evs⟩ <;>
        rw [hp] at hjs <;> simp only [JobStep.evs] at hjs
      · have h1 : evs.countP isFinishedEv = 0 := List.countP_eq_zero.2 (fun a ha => by
          simp [(hjs a ha).1])
        have h2 : evs.countP isDoneEv = 0 := List.countP_eq_zero.2 (fun a ha => by
          simp [(hjs a ha).2])
        simp [innerLoop, hit, hp, InnerRes.tr_term, InnerRes.tr_cont, h1, h2]
      · have h1 : evs.countP isFinishedEv = 0 := List.countP_eq_zero.2 (fun a ha => by
          simp [(hjs a ha).1])
        have h2 : evs.countP isDoneEv = 0 := List.countP_eq_zero.2 (fun a ha => by
          simp [(hjs a ha).2])
        rcases ha : afterPoll { ctx with srvSt := s1 } idx id upd regs push drop with
          ⟨ctx1, idx1, broke⟩
        cases broke
        · obtain ⟨ih1, ih2⟩ := ih ctx1 idx1 (nr && !prog)
          simp [innerLoop, hit, hp, ha, InnerRes.tr_push, List.countP_append, h1, h2, ih1, ih2]
        · simp [innerLoop, hit, hp, ha, InnerRes.tr_cont, h1, h2]

theorem sweepOnce_finished_done {σ I E RI RE : Type} (S : Service σ I E RI RE)
    (g : Nat) (ctx : Context σ I E RI RE) :
    ((sweepOnce S g ctx).tr).countP isFinishedEv = ((sweepOnce S g ctx).tr).countP isDoneEv := by
  rcases hs : ctx.stream with _ | ⟨p, s1⟩
  · obtain ⟨h1, h2⟩ := innerLoop_tr_counts S g { ctx with stream := [] } 0 true
    simp [sweepOnce, hs, pollStream, InnerRes.tr_push, InnerRes.tr_term, InnerRes.tr_cont,
      InnerRes.tr_fuelOut, List.countP_append, List.countP_cons, isFinishedEv, isDoneEv, h1, h2]
  · cases p with
    | ready v =>
      rcases hc : S.call ctx.srvSt (Except.ok v) with ⟨s2, resp, regs⟩
      obtain ⟨h1, h2⟩ := innerLoop_tr_counts S g
        (addItems { ctx with stream := s1, srvSt := s2 } regs) 0 false
      cases resp <;>
        simp [sweepOnce, hs, pollStream, hc, InnerRes.tr_push, InnerRes.tr_term, InnerRes.tr_cont,
          InnerRes.tr_fuelOut, List.countP_append, List.countP_cons, isFinishedEv, isDoneEv,
          h1, h2]
    | done =>
      rcases hc : S.finished ctx.srvSt with ⟨s2, resp, regs⟩
      obtain ⟨h1, h2⟩ := innerLoop_tr_counts S g
        (addItems { ctx with stream := s1, srvSt := s2 } regs) 0 true
      cases resp <;>
        simp [sweepOnce, hs, pollStream, hc, InnerRes.tr_push, InnerRes.tr_term, InnerRes.tr_cont,
          InnerRes.tr_fuelOut, List.countP_append, List.countP_cons, isFinishedEv, isDoneEv,
          h1, h2]
    | notReady =>
      obtain ⟨h1, h2⟩ := innerLoop_tr_counts S g { ctx with stream := s1 } 0 true
      simp [sweepOnce, hs, pollStream, InnerRes.tr_push, List.countP_append, List.countP_cons,
        isFinishedEv, isDoneEv, h1, h2]
    | err e =>
      rcases hc : S.call ctx.srvSt (Except.error e) with ⟨s2, resp, regs⟩
      obtain ⟨h1, h2⟩ := innerLoop_tr_counts S g
        (addItems { ctx with stream := s1, srvSt := s2 } regs) 0 true
      cases resp <;>
        simp [sweepOnce, hs, pollStream, hc, InnerRes.tr_push, InnerRes.tr_term, InnerRes.tr_cont,
          InnerRes.tr_fuelOut, List.countP_append, List.countP_cons, isFinishedEv, isDoneEv,
          h1, h2]

theorem pollLoop_finished_done {σ I E RI RE : Type} (S : Service σ I E RI RE) :
    ∀ (f g : Nat) (ctx : Context σ I E RI RE),
      ((pollLoop S f g ctx).2).countP isFinishedEv = ((pollLoop S f g ctx).2).countP isDoneEv := by
  intro f
  induction f with
  | zero => intro g ctx; simp [pollLoop]
  | succ f ihf =>
    intro g ctx
    have hsw := sweepOnce_finished_done S g ctx
    rcases hs : sweepOnce S g ctx with ⟨t, tr⟩ | ⟨c, nr, tr⟩ | tr <;> rw [hs] at hsw <;>
      simp only [InnerRes.tr_term, InnerRes.tr_cont, InnerRes.tr_fuelOut] at hsw <;> simp only [pollLoop, hs]
    · exact hsw
    · cases nr with
      | true => simpa using hsw
      | false =>
        rcases hrec : pollLoop S f g c with ⟨r, tr2⟩
        have hih := ihf g c
        rw [hrec] at hih
        simp only [Bool.false_eq_true, if_false, List.countP_append, hsw, hih]
    · exact hsw

/-- C3 (amended): over the whole engine, `finished` is invoked exactly once
per exhaustion report of the primary sequence: in every poll trace the number
of `finished` invocations equals the number of times the primary sequence
reported exhaustion.  The engine keeps no once-only flag, so a primary
sequence that reports exhaustion again on a later sweep or a later poll
causes `finished` to be invoked again. -/
theorem finished_matches_exhaustion_reports {σ I E RI RE : Type}
    (S : Service σ I E RI RE) (f g : Nat) (ctx : Context σ I E RI RE)
    (res : PollRes σ I E RI RE) (tr : List (Event I E RI RE))
    (h : Context.poll S f g ctx = (res, tr)) :
    tr.countP isFinishedEv = tr.countP isDoneEv := by
  by_cases hst : ctx.started
  · have := pollLoop_finished_done S f g ctx
    rw [show pollLoop S f g ctx = (res, tr) from by
      rw [← h]; simp [Context.poll, hst]] at this
    exact this
  · rcases hS : S.start ctx.srvSt with ⟨s1, regs⟩
    have := pollLoop_finished_done S f g (addItems { ctx with srvSt := s1, started := true } regs)
    rcases hrec : pollLoop S f g (addItems { ctx with srvSt := s1, started := true } regs) with
      ⟨r2, tr2⟩
    rw [hrec] at this
    have hh : Context.poll S f g ctx = (r2, Event.startEv :: tr2) := by
      simp [Context.poll, hst, hS, hrec]
    rw [h] at hh
    injection hh with hh1 hh2
    subst hh2
    simpa [List.countP_cons, isFinishedEv, isDoneEv] using this

/-- Witness for the amended C3: a normal engine whose primary sequence
reports exhaustion once invokes `finished` once. -/
theorem finished_matches_exhaustion_reports_witness :
    (Context.poll trivialService 2 2 ⟨(), true, [StreamPoll.done], [], 0⟩ =
      (PollRes.notReady ⟨(), true, [], [], 0⟩,
        [Event.streamEv StreamPoll.done, Event.finishedEv Poll.notReady])) ∧
    (([Event.streamEv StreamPoll.done, Event.finishedEv Poll.notReady] :
        List (Event Nat Nat Nat Nat)).countP isFinishedEv =
      ([Event.streamEv StreamPoll.done, Event.finishedEv Poll.notReady] :
        List (Event Nat Nat Nat Nat)).countP isDoneEv) :=
  ⟨by decide,
    finished_matches_exhaustion_reports trivialService 2 2 ⟨(), true, [StreamPoll.done], [], 0⟩
      (PollRes.notReady ⟨(), true, [], [], 0⟩)
      [Event.streamEv StreamPoll.done, Event.finishedEv Poll.notReady] (by decide)⟩

/-- C3 counterexample: a primary stream that reports exhaustion twice (legal
for a futures-0.1 stream polled again after completion) makes the engine
invoke `finished` twice within a single external poll, because a plain-task
job made progress in between and triggered a second sweep.  `finished` is
therefore not invoked at most once over the engine's lifetime. -/
theorem finished_invoked_twice_counterexample :
    ((Context.poll trivialService 3 3
        ⟨(), true, [StreamPoll.done, StreamPoll.done],
          [(0, Item.Future [Poll.ready 7])], 1⟩).2).countP isFinishedEv = 2 := by
  decide

theorem afterPoll_drop_push {σ I E RI RE : Type} (ctx : Context σ I E RI RE)
    (idx id : Nat) (upd : Item I E RI RE) (strm : List (StreamPoll I E))
    (hlen : idx < ctx.items.length) :
    afterPoll ctx idx id upd [] [Item.Stream strm] true =
      ({ ctx with
          items := ctx.items.set idx (ctx.nextId, Item.Stream strm),
          nextId := ctx.nextId + 1 }, idx, false) := by
  simp only [afterPoll, assignIds, List.append_nil]
  have hlen1 : (ctx.items.set idx (id, upd) ++ [(ctx.nextId, Item.Stream strm)]).length =
      ctx.items.length + 1 := by simp
  rw [if_pos trivial]
  rw [if_neg (by rw [hlen1]; omega)]
  simp only [List.dropLast_concat, List.getLast?_concat, Option.getD_some, List.set_set]

/-- C6: when a deferred-sequence job's task resolves, the job at the current
index is replaced in place by the resolved secondary sequence: the job vector
is the old vector with slot `idx` overwritten by a plain secondary-sequence
job carrying the resolved script (a fresh ghost id), the index is not
advanced (so the resolved sequence is polled next, in the same sweep), and
from that point on the engine state is literally that of an engine with a
directly registered secondary sequence in that slot: indistinguishable to the
Behavior. -/
theorem futstream_resolves_in_place {σ I E RI RE : Type} (S : Service σ I E RI RE)
    (fuel : Nat) (ctx : Context σ I E RI RE) (idx jid : Nat)
    (strm : List (StreamPoll I E)) (fs : List (Poll (List (StreamPoll I E)) E)) (nr : Bool)
    (h : ctx.items[idx]? = some (jid, Item.FutStream (Poll.ready strm :: fs))) :
    innerLoop S (fuel + 1) ctx idx nr =
      (innerLoop S fuel
        { ctx with
          items := ctx.items.set idx (ctx.nextId, Item.Stream strm),
          nextId := ctx.nextId + 1 } idx nr).push [Event.jobEv jid JobRes.resolved] := by
  have hlen : idx < ctx.items.length := (List.getElem?_eq_some.1 h).1
  have hap := afterPoll_drop_push { ctx with srvSt := ctx.srvSt } idx jid
    (Item.FutStream fs) strm hlen
  simp only [innerLoop, h, pollJob, pollFut]
  rw [show { ctx with srvSt := ctx.srvSt } = ctx from rfl] at hap
  rw [hap]
  simp

/-- Witness for C6: a concrete deferred-sequence job resolving in place. -/
theorem futstream_resolves_in_place_witness :
    (((⟨(), true, [], [(0, Item.FutStream [Poll.ready [StreamPoll.ready 9]]), (1, Item.Sink [])],
        2⟩ : Context Unit Nat Nat Nat Nat).items)[0]? =
      some (0, Item.FutStream [Poll.ready [StreamPoll.ready 9]])) ∧
    (innerLoop trivialService 3
        ⟨(), true, [], [(0, Item.FutStream [Poll.ready [StreamPoll.ready 9]]), (1, Item.Sink [])],
          2⟩ 0 true =
      (innerLoop trivialService 2
          ⟨(), true, [], [(2, Item.Stream [StreamPoll.ready 9]), (1, Item.Sink [])], 3⟩ 0
          true).push [Event.jobEv 0 JobRes.resolved]) :=
  ⟨by decide,
    futstream_resolves_in_place trivialService 2
      ⟨(), true, [], [(0, Item.FutStream [Poll.ready [StreamPoll.ready 9]]), (1, Item.Sink [])], 2⟩
      0 0 [StreamPoll.ready 9] [] true (by decide)⟩

/-- C8: when a sink job's poll yields a value of the engine's Result type (or
a propagated error), the engine terminates immediately with that value as its
own terminal Result: `call` is not invoked and no remaining job (the
arbitrary `rest` of the vector) is polled, as the trace shows. -/
theorem sink_result_short_circuits {σ I E RI RE : Type} (S : Service σ I E RI RE)
    (f g : Nat) (σ0 : σ) (jid n : Nat) (rest : List (Nat × Item I E RI RE)) :
    (∀ (r : RI) (sc : List (Poll RI RE)),
      Context.poll S (f + 1) (g + 1)
          ⟨σ0, true, [], (jid, Item.Sink (Poll.ready r :: sc)) :: rest, n⟩ =
        (PollRes.term (Term.ready r),
          [Event.streamEv StreamPoll.notReady, Event.jobEv jid (JobRes.sinkVal r)])) ∧
    (∀ (e : RE) (sc : List (Poll RI RE)),
      Context.poll S (f + 1) (g + 1)
          ⟨σ0, true, [], (jid, Item.Sink (Poll.err e :: sc)) :: rest, n⟩ =
        (PollRes.term (Term.err e),
          [Event.streamEv StreamPoll.notReady, Event.jobEv jid (JobRes.sinkErr e)])) := by
  refine ⟨fun r sc => ?_, fun e sc => ?_⟩ <;>
    simp [Context.poll, pollLoop, sweepOnce, pollStream, innerLoop, pollJob, pollFut,
      InnerRes.push]

/-- Witness for C8: concrete sink short-circuit past a pending job. -/
theorem sink_result_short_circuits_witness :
    Context.poll trivialService 1 1
        ⟨(), true, [], [(3, Item.Sink [Poll.ready 42]), (4, Item.Future [Poll.ready 1])], 5⟩ =
      (PollRes.term (Term.ready 42),
        [Event.streamEv StreamPoll.notReady, Event.jobEv 3 (JobRes.sinkVal 42)]) :=
  (sink_result_short_circuits trivialService 0 0 () 3 5 [(4, Item.Future [Poll.ready 1])]).1 42 []

/-- C7: a spawned (fire-and-forget) job whose poll yields an error produces
no observable effect: `call` is not invoked (for any service whatsoever), the
engine does not terminate, and the job is silently removed; a plain-task job
whose poll yields an error triggers exactly one `call` with `Err(error)` and
is then removed. -/
theorem spawn_error_silent_task_error_forwarded {σ I E RI RE : Type}
    (S : Service σ I E RI RE) (σ0 : σ) (jid n : Nat) :
    (∀ (sc : List (Poll Unit Unit)),
      Context.poll S 2 2 ⟨σ0, true, [], [(jid, Item.CtxSpawnFuture (Poll.err () :: sc))], n⟩ =
        (PollRes.notReady ⟨σ0, true, [], [], n⟩,
          [Event.streamEv StreamPoll.notReady, Event.jobEv jid JobRes.spawnErr])) ∧
    (∀ (er : E) (sc : List (Poll I E)) (s1 : σ),
      S.call σ0 (Except.error er) = (s1, Poll.notReady, []) →
      Context.poll S 2 2 ⟨σ0, true, [], [(jid, Item.Future (Poll.err er :: sc))], n⟩ =
        (PollRes.notReady ⟨s1, true, [], [], n⟩,
          [Event.streamEv StreamPoll.notReady, Event.jobEv jid (JobRes.errv er),
            Event.callEv (Except.error er) Poll.notReady])) := by
  constructor
  · intro sc
    simp [Context.poll, pollLoop, sweepOnce, pollStream, innerLoop, pollJob, pollFut,
      InnerRes.push, afterPoll, assignIds]
  · intro er sc s1 hc
    simp [Context.poll, pollLoop, sweepOnce, pollStream, innerLoop, pollJob, pollFut,
      InnerRes.push, afterPoll, assignIds, hc]

/-- Witness for C7: concrete spawned job and plain task erroring. -/
theorem spawn_error_silent_task_error_forwarded_witness :
    (Context.poll trivialService 2 2
        ⟨(), true, [], [(0, Item.CtxSpawnFuture [Poll.err ()])], 1⟩ =
      (PollRes.notReady ⟨(), true, [], [], 1⟩,
        [Event.streamEv StreamPoll.notReady, Event.jobEv 0 JobRes.spawnErr])) ∧
    (Context.poll trivialService 2 2
        ⟨(), true, [], [(0, Item.Future [Poll.err 9])], 1⟩ =
      (PollRes.notReady ⟨(), true, [], [], 1⟩,
        [Event.streamEv StreamPoll.notReady, Event.jobEv 0 (JobRes.errv 9),
          Event.callEv (Except.error 9) Poll.notReady])) :=
  ⟨(spawn_error_silent_task_error_forwarded trivialService () 0 1).1 [],
    (spawn_error_silent_task_error_forwarded trivialService () 0 1).2 9 [] () (by decide)⟩


theorem poll_started {σ I E RI RE : Type} (S : Service σ I E RI RE) (f g : Nat)
    (ctx : Context σ I E RI RE) (h : ctx.started = true) :
    Context.poll S f g ctx = pollLoop S f g ctx := by
  simp [Context.poll, h]

theorem pollLoop_succ_term {σ I E RI RE : Type} (S : Service σ I E RI RE) (f g : Nat)
    (ctx : Context σ I E RI RE) (t : Term RI RE) (tr : List (Event I E RI RE))
    (hsw : sweepOnce S g ctx = .term t tr) :
    pollLoop S (f + 1) g ctx = (.term t, tr) := by
  simp [pollLoop, hsw]

theorem pollLoop_succ_notReady {σ I E RI RE : Type} (S : Service σ I E RI RE) (f g : Nat)
    (ctx c : Context σ I E RI RE) (tr : List (Event I E RI RE))
    (hsw : sweepOnce S g ctx = .cont c true tr) :
    pollLoop S (f + 1) g ctx = (.notReady c, tr) := by
  simp [pollLoop, hsw]

theorem pollLoop_succ_cont {σ I E RI RE : Type} (S : Service σ I E RI RE) (f g : Nat)
    (ctx c : Context σ I E RI RE) (tr tr2 : List (Event I E RI RE))
    (r2 : PollRes σ I E RI RE)
    (hsw : sweepOnce S g ctx = .cont c false tr)
    (hrec : pollLoop S f g c = (r2, tr2)) :
    pollLoop S (f + 1) g ctx = (r2, tr ++ tr2) := by
  simp [pollLoop, hsw, hrec]

/-- C10: an error from the primary sequence does not remove or exhaust the
primary sequence: the error is forwarded to `call` as `Err`, the stream's
remaining script is kept, and on the next poll the same primary sequence is
polled again and delivers its next item to `call`. -/
theorem primary_error_not_fatal {σ I E RI RE : Type} (S : Service σ I E RI RE)
    (σ0 s1 s2 : σ) (e : E) (v : I) (rest : List (StreamPoll I E)) (n : Nat)
    (hc1 : S.call σ0 (Except.error e) = (s1, Poll.notReady, []))
    (hc2 : S.call s1 (Except.ok v) = (s2, Poll.notReady, [])) :
    (Context.poll S 1 1 ⟨σ0, true, StreamPoll.err e :: StreamPoll.ready v :: rest, [], n⟩ =
      (PollRes.notReady ⟨s1, true, StreamPoll.ready v :: rest, [], n⟩,
        [Event.streamEv (StreamPoll.err e), Event.callEv (Except.error e) Poll.notReady])) ∧
    (∃ res tr,
      Context.poll S 2 1 ⟨s1, true, StreamPoll.ready v :: rest, [], n⟩ =
        (res, Event.streamEv (StreamPoll.ready v) ::
          Event.callEv (Except.ok v) Poll.notReady :: tr)) := by
  constructor
  · simp [Context.poll, pollLoop, sweepOnce, pollStream, innerLoop, InnerRes.push,
      addItems, assignIds, hc1]
  · rcases hrec : pollLoop S 1 1 ⟨s2, true, rest, [], n⟩ with ⟨r2, tr2⟩
    refine ⟨r2, tr2, ?_⟩
    have hsw : sweepOnce S 1 ⟨s1, true, StreamPoll.ready v :: rest, [], n⟩ =
        InnerRes.cont ⟨s2, true, rest, [], n⟩ false
          [Event.streamEv (StreamPoll.ready v), Event.callEv (Except.ok v) Poll.notReady] := by
      simp [sweepOnce, pollStream, innerLoop, InnerRes.push, addItems, assignIds, hc2]
    rw [poll_started S 2 1 _ rfl]
    show pollLoop S (1 + 1) 1 _ = _
    rw [pollLoop_succ_cont S 1 1 _ _ _ _ _ hsw hrec]
    rfl

/-- Witness for C10. -/
theorem primary_error_not_fatal_witness :
    (Context.poll trivialService 1 1
        ⟨(), true, [StreamPoll.err 7, StreamPoll.ready 8], [], 0⟩ =
      (PollRes.notReady ⟨(), true, [StreamPoll.ready 8], [], 0⟩,
        [Event.streamEv (StreamPoll.err 7), Event.callEv (Except.error 7) Poll.notReady])) ∧
    (∃ res tr,
      Context.poll trivialService 2 1 ⟨(), true, [StreamPoll.ready 8], [], 0⟩ =
        (res, Event.streamEv (StreamPoll.ready 8) ::
          Event.callEv (Except.ok 8) Poll.notReady :: tr)) := by
  have h := primary_error_not_fatal trivialService () () () 7 8 [] 0 (by decide) (by decide)
  exact ⟨h.1, h.2⟩

theorem pollLoop_drain {σ I E RI RE : Type} (S : Service σ I E RI RE)
    (hcall : ∀ (s : σ) (a : Except E I),
      (S.call s a).2.1 = Poll.notReady ∧ (S.call s a).2.2 = [])
    (hfin : ∀ s : σ, (S.finished s).2.2 = ([] : List (Item I E RI RE))) :
    ∀ (vs : List I) (sc : σ),
      pollLoop S (vs.length + 1) 1
          ⟨sc, true, vs.map StreamPoll.ready ++ [StreamPoll.done], [], 0⟩ =
        ((match (S.finished (vs.foldl (fun s v => (S.call s (Except.ok v)).1) sc)).2.1 with
          | Poll.notReady => PollRes.notReady
              ⟨(S.finished (vs.foldl (fun s v => (S.call s (Except.ok v)).1) sc)).1,
                true, [], [], 0⟩
          | Poll.ready r => PollRes.term (Term.ready r)
          | Poll.err e2 => PollRes.term (Term.err e2)),
          primaryTrace vs ++ [Event.streamEv StreamPoll.done,
            Event.finishedEv
              (S.finished (vs.foldl (fun s v => (S.call s (Except.ok v)).1) sc)).2.1]) := by
  intro vs
  induction vs with
  | nil =>
    intro sc
    rcases hf : S.finished sc with ⟨s2, resp, regs⟩
    have hregs : regs = [] := by
      have := hfin sc
      rw [hf] at this
      exact this
    subst hregs
    cases resp with
    | notReady =>
      have hsw : sweepOnce S 1 ⟨sc, true, [StreamPoll.done], [], 0⟩ =
          InnerRes.cont ⟨s2, true, [], [], 0⟩ true
            [Event.streamEv StreamPoll.done, Event.finishedEv Poll.notReady] := by
        simp [sweepOnce, pollStream, hf, innerLoop, InnerRes.push, addItems, assignIds]
      rw [show (([] : List I).map StreamPoll.ready ++ [StreamPoll.done] :
        List (StreamPoll I E)) = [StreamPoll.done] from rfl]
      rw [show ([] : List I).length + 1 = 0 + 1 from rfl]
      rw [pollLoop_succ_notReady S 0 1 _ _ _ hsw]
      simp [primaryTrace, hf]
    | ready r =>
      have hsw : sweepOnce S 1 ⟨sc, true, [StreamPoll.done], [], 0⟩ =
          InnerRes.term (Term.ready r)
            [Event.streamEv StreamPoll.done, Event.finishedEv (Poll.ready r)] := by
        simp [sweepOnce, pollStream, hf]
      rw [show (([] : List I).map StreamPoll.ready ++ [StreamPoll.done] :
        List (StreamPoll I E)) = [StreamPoll.done] from rfl]
      rw [show ([] : List I).length + 1 = 0 + 1 from rfl]
      rw [pollLoop_succ_term S 0 1 _ _ _ hsw]
      simp [primaryTrace, hf]
    | err e2 =>
      have hsw : sweepOnce S 1 ⟨sc, true, [StreamPoll.done], [], 0⟩ =
          InnerRes.term (Term.err e2)
            [Event.streamEv StreamPoll.done, Event.finishedEv (Poll.err e2)] := by
        simp [sweepOnce, pollStream, hf]
      rw [show (([] : List I).map StreamPoll.ready ++ [StreamPoll.done] :
        List (StreamPoll I E)) = [StreamPoll.done] from rfl]
      rw [show ([] : List I).length + 1 = 0 + 1 from rfl]
      rw [pollLoop_succ_term S 0 1 _ _ _ hsw]
      simp [primaryTrace, hf]
  | cons v vs ih =>
    intro sc
    rcases hcv : S.call sc (Except.ok v) with ⟨s2, resp, regs⟩
    obtain ⟨h1, h2⟩ := hcall sc (Except.ok v)
    rw [hcv] at h1 h2
    simp only at h1 h2
    subst h1
    subst h2
    have hsw : sweepOnce S 1
        ⟨sc, true, (v :: vs).map StreamPoll.ready ++ [StreamPoll.done], [], 0⟩ =
        InnerRes.cont ⟨s2, true, vs.map StreamPoll.ready ++ [StreamPoll.done], [], 0⟩ false
          [Event.streamEv (StreamPoll.ready v), Event.callEv (Except.ok v) Poll.notReady] := by
      simp [sweepOnce, pollStream, hcv, innerLoop, InnerRes.push, addItems, assignIds]
    rcases hrec : pollLoop S (vs.length + 1) 1
        ⟨s2, true, vs.map StreamPoll.ready ++ [StreamPoll.done], [], 0⟩ with ⟨r2, tr2⟩
    rw [show (v :: vs).length + 1 = (vs.length + 1) + 1 by simp]
    rw [pollLoop_succ_cont S (vs.length + 1) 1 _ _ _ _ _ hsw hrec]
    have hih := ih s2
    rw [hrec] at hih
    injection hih with ha hb
    rw [ha, hb]
    simp [primaryTrace, hcv]

/-- C1: for every primary sequence of N items and every Behavior whose `call`
always returns "not yet done" (and registers nothing, as does `start` and
`finished`), the engine invokes `call` exactly N times, once per item with
`Ok(item)` in the order the items are produced, before `finished` is invoked
exactly once when the sequence reports exhaustion: the full trace is pinned
by the equation. -/
theorem engine_calls_once_per_item_in_order {σ I E RI RE : Type}
    (S : Service σ I E RI RE) (σ0 : σ) (vs : List I)
    (hstart : ∀ s : σ, (S.start s).2 = [])
    (hcall : ∀ (s : σ) (a : Except E I),
      (S.call s a).2.1 = Poll.notReady ∧ (S.call s a).2.2 = [])
    (hfin : ∀ s : σ, (S.finished s).2.2 = ([] : List (Item I E RI RE))) :
    Context.poll S (vs.length + 1) 1
        ⟨σ0, false, vs.map StreamPoll.ready ++ [StreamPoll.done], [], 0⟩ =
      ((match (S.finished
            (vs.foldl (fun s v => (S.call s (Except.ok v)).1) (S.start σ0).1)).2.1 with
        | Poll.notReady => PollRes.notReady
            ⟨(S.finished
                (vs.foldl (fun s v => (S.call s (Except.ok v)).1) (S.start σ0).1)).1,
              true, [], [], 0⟩
        | Poll.ready r => PollRes.term (Term.ready r)
        | Poll.err e2 => PollRes.term (Term.err e2)),
        Event.startEv :: (primaryTrace vs ++ [Event.streamEv StreamPoll.done,
          Event.finishedEv (S.finished
            (vs.foldl (fun s v => (S.call s (Except.ok v)).1) (S.start σ0).1)).2.1])) := by
  rcases hS : S.start σ0 with ⟨s1, regs⟩
  have hregs : regs = [] := by
    have := hstart σ0
    rw [hS] at this
    exact this
  subst hregs
  rcases hrec : pollLoop S (vs.length + 1) 1
      ⟨s1, true, vs.map StreamPoll.ready ++ [StreamPoll.done], [], 0⟩ with ⟨r, tr⟩
  have hdrain := pollLoop_drain S hcall hfin vs s1
  rw [hrec] at hdrain
  injection hdrain with ha hb
  have hrun : Context.poll S (vs.length + 1) 1
      ⟨σ0, false, vs.map StreamPoll.ready ++ [StreamPoll.done], [], 0⟩ =
      (r, Event.startEv :: tr) := by
    simp [Context.poll, hS, addItems, assignIds, hrec]
  rw [hrun, ha, hb]

/-- Witness for C1: the three-item end-to-end scenario. -/
theorem engine_calls_once_per_item_in_order_witness :
    (∀ s : Unit, (trivialService.start s).2 = []) ∧
    Context.poll trivialService 4 1
        ⟨(), false, [StreamPoll.ready 1, StreamPoll.ready 2, StreamPoll.ready 3,
          StreamPoll.done], [], 0⟩ =
      (PollRes.notReady ⟨(), true, [], [], 0⟩,
        [Event.startEv,
          Event.streamEv (StreamPoll.ready 1), Event.callEv (Except.ok 1) Poll.notReady,
          Event.streamEv (StreamPoll.ready 2), Event.callEv (Except.ok 2) Poll.notReady,
          Event.streamEv (StreamPoll.ready 3), Event.callEv (Except.ok 3) Poll.notReady,
          Event.streamEv StreamPoll.done, Event.finishedEv Poll.notReady]) :=
  ⟨fun _ => rfl,
    engine_calls_once_per_item_in_order trivialService () [1, 2, 3]
      (fun _ => rfl) (fun _ _ => ⟨rfl, rfl⟩) (fun _ => rfl)⟩

theorem freshCount {I E RI RE : Type} (regs push : List (Item I E RI RE)) (n0 id2 : Nat) :
    ((assignIds n0 regs).1).countP (fun p => p.1 == id2) +
    ((assignIds (assignIds n0 regs).2 push).1).countP (fun p => p.1 == id2) =
      if n0 ≤ id2 ∧ id2 < (assignIds (assignIds n0 regs).2 push).2 then 1 else 0 := by
  rw [assignIds_countP, assignIds_countP, assignIds_snd, assignIds_snd]
  split_ifs <;> omega

theorem count_swap_remove {α : Type} (X : List α) (p : α → Bool) (hne : X ≠ []) (d : α) :
    (X.getLast?.getD d :: X.dropLast).countP p = X.countP p := by
  obtain ⟨a, ha⟩ : ∃ a, X.getLast? = some a := by
    cases hx : X.getLast? with
    | none => exact absurd (List.getLast?_eq_none_iff.1 hx) hne
    | some a => exact ⟨a, rfl⟩
  have hX : X.dropLast ++ [a] = X := List.dropLast_append_getLast? a (by rw [ha]; rfl)
  rw [ha, Option.getD_some]
  calc (a :: X.dropLast).countP p
      = (X.dropLast ++ [a]).countP p := by
        rw [List.countP_cons, List.countP_append, List.countP_cons, List.countP_nil]
        omega
    _ = X.countP p := by rw [hX]

theorem items1_drop_succ {α : Type} (L : List α) (idx : Nat) (x : α) (a b : List α)
    (h : idx < L.length) :
    (L.set idx x ++ a ++ b).drop (idx + 1) = L.drop (idx + 1) ++ a ++ b := by
  rw [List.drop_append_of_le_length (by simp; omega),
    List.drop_append_of_le_length (by simp; omega),
    drop_set_past L idx (idx + 1) x (Nat.lt_succ_self idx)]

theorem afterPoll_keep {σ I E RI RE : Type} (ctx : Context σ I E RI RE) (idx id : Nat)
    (upd : Item I E RI RE) (regs push : List (Item I E RI RE)) :
    afterPoll ctx idx id upd regs push false =
      ({ ctx with
          items := ctx.items.set idx (id, upd) ++ (assignIds ctx.nextId regs).1 ++
            (assignIds (assignIds ctx.nextId regs).2 push).1,
          nextId := (assignIds (assignIds ctx.nextId regs).2 push).2 }, idx + 1, false) := by
  simp only [afterPoll]
  rcases h1 : assignIds ctx.nextId regs with ⟨r1, n1⟩
  rcases h2 : assignIds n1 push with ⟨p1, n2⟩
  simp [h1, h2]

theorem afterPoll_drop_break {σ I E RI RE : Type} (ctx : Context σ I E RI RE) (idx id : Nat)
    (upd : Item I E RI RE)
    (hidx : idx ≥ (ctx.items.set idx (id, upd)).length - 1) :
    afterPoll ctx idx id upd [] [] true =
      ({ ctx with items := (ctx.items.set idx (id, upd)).dropLast }, idx, true) := by
  simp only [afterPoll, assignIds, List.append_nil]
  rw [if_pos trivial, if_pos hidx]

theorem afterPoll_drop_swap {σ I E RI RE : Type} (ctx : Context σ I E RI RE) (idx id : Nat)
    (upd : Item I E RI RE) (regs push : List (Item I E RI RE))
    (hidx : idx <
      (ctx.items.set idx (id, upd) ++ (assignIds ctx.nextId regs).1 ++
        (assignIds (assignIds ctx.nextId regs).2 push).1).length - 1) :
    afterPoll ctx idx id upd regs push true =
      ({ ctx with
          items := (ctx.items.set idx (id, upd) ++ (assignIds ctx.nextId regs).1 ++
            (assignIds (assignIds ctx.nextId regs).2 push).1).dropLast.set idx
              ((ctx.items.set idx (id, upd) ++ (assignIds ctx.nextId regs).1 ++
                (assignIds (assignIds ctx.nextId regs).2 push).1).getLast?.getD (id, upd)),
          nextId := (assignIds (assignIds ctx.nextId regs).2 push).2 }, idx, false) := by
  simp only [afterPoll]
  rcases h1 : assignIds ctx.nextId regs with ⟨r1, n1⟩
  rcases h2 : assignIds n1 push with ⟨p1, n2⟩
  simp only [h1, h2] at hidx ⊢
  rw [if_pos trivial, if_neg (by omega)]

theorem assignIds_length {I E RI RE : Type} :
    ∀ (js : List (Item I E RI RE)) (n : Nat), ((assignIds n js).1).length = js.length := by
  intro js
  induction js with
  | nil => intro n; simp [assignIds]
  | cons j t ih =>
    intro n
    simp only [assignIds]
    rw [show assignIds (n + 1) t = ((assignIds (n + 1) t).1, (assignIds (n + 1) t).2) from rfl]
    simp [ih]

theorem push_cont_inv {σ I E RI RE : Type} {r : InnerRes σ I E RI RE}
    {evs tr : List (Event I E RI RE)} {c : Context σ I E RI RE} {nr2 : Bool}
    (h : r.push evs = .cont c nr2 tr) :
    ∃ tr3, r = .cont c nr2 tr3 ∧ tr = evs ++ tr3 := by
  cases r with
  | term t tr3 => exact InnerRes.noConfusion h
  | cont c3 n3 tr3 =>
    simp only [InnerRes.push] at h
    injection h with h1 h2 h3
    subst h1
    subst h2
    exact ⟨tr3, rfl, h3.symm⟩
  | fuelOut tr3 => exact InnerRes.noConfusion h

theorem innerLoop_count {σ I E RI RE : Type} (S : Service σ I E RI RE) :
    ∀ (fuel : Nat) (ctx : Context σ I E RI RE) (idx : Nat) (nr : Bool)
      (ctx2 : Context σ I E RI RE) (nr2 : Bool) (tr : List (Event I E RI RE)),
      innerLoop S fuel ctx idx nr = .cont ctx2 nr2 tr →
      (∀ p ∈ ctx.items, p.1 < ctx.nextId) →
      ∀ id2, id2 < ctx2.nextId →
        tr.countP (isJobEvFor id2) =
          (ctx.items.drop idx).countP (fun p => p.1 == id2) +
          (if ctx.nextId ≤ id2 then 1 else 0) := by
  intro fuel
  induction fuel with
  | zero =>
    intro ctx idx nr ctx2 nr2 tr h
    simp only [innerLoop] at h
    exact InnerRes.noConfusion h
  | succ fuel ih =>
    intro ctx idx nr ctx2 nr2 tr h hwf id2 hid2
    rcases hit : ctx.items[idx]? with _ | ⟨id, job⟩
    · simp only [innerLoop, hit] at h
      injection h with h1 h2 h3
      subst h1
      subst h3
      have hge : ctx.items.length ≤ idx := List.getElem?_eq_none_iff.1 hit
      have hid2' : id2 < ctx.nextId := hid2
      have hcond : ¬ ctx.nextId ≤ id2 := by omega
      rw [List.drop_eq_nil_of_le hge, if_neg hcond]
      simp
    · obtain ⟨hlen, hgetelem⟩ := List.getElem?_eq_some.1 hit
      have hmemidx : (id, job) ∈ ctx.items := List.getElem?_mem hit
      have hidlt : id < ctx.nextId := hwf _ hmemidx
      have hdropidx : ctx.items.drop idx = (id, job) :: ctx.items.drop (idx + 1) := by
        rw [List.drop_eq_getElem_cons hlen, hgetelem]
      have hjc := (pollJob_spec S ctx.srvSt id job).1
      rcases hp : pollJob S ctx.srvSt id job with ⟨t, evs⟩ |
        ⟨s1, upd, regs, push, drop, prog, evs⟩
      · simp only [innerLoop, hit, hp] at h
        exact InnerRes.noConfusion h
      · rw [hp] at hjc
        simp only [JobStep.evs] at hjc
        have hsnd1 : (@assignIds I E RI RE
            ctx.nextId regs).2 = ctx.nextId + regs.length := assignIds_snd regs ctx.nextId
        have hsnd2 : (assignIds (@assignIds I E RI RE
            ctx.nextId regs).2 push).2 = (@assignIds I E RI RE
            ctx.nextId regs).2 + push.length := assignIds_snd push _
        have hwfItems1 : ∀ p ∈ (ctx.items.set idx (id, upd) ++
            (assignIds ctx.nextId regs).1 ++
            (assignIds (assignIds ctx.nextId regs).2 push).1),
            p.1 < (assignIds (assignIds ctx.nextId regs).2 push).2 := by
          intro p hp2
          rcases List.mem_append.1 hp2 with hp1 | hpc
          · rcases List.mem_append.1 hp1 with hpa | hpb
            · rcases List.mem_or_eq_of_mem_set hpa with hIn | hEq
              · have := hwf p hIn
                omega
              · rw [hEq]
                simp only
                omega
            · have := assignIds_bounds regs ctx.nextId p hpb
              omega
          · have := assignIds_bounds push (assignIds ctx.nextId regs).2 p hpc
            omega
        have hlen1 : (ctx.items.set idx (id, upd) ++ (assignIds ctx.nextId regs).1 ++
            (assignIds (assignIds ctx.nextId regs).2 push).1).length =
            ctx.items.length + regs.length + push.length := by
          simp [assignIds_length]
          omega
        cases drop
        · -- keep: index advances
          simp only [innerLoop, hit, hp, afterPoll_keep, Bool.false_eq_true, if_false] at h
          obtain ⟨tr3, hr, rfl⟩ := push_cont_inv h
          have hIH := ih _ (idx + 1) (nr && !prog) ctx2 nr2 tr3 hr hwfItems1 id2 hid2
          rw [List.countP_append, hjc id2, hIH]
          simp only
          rw [items1_drop_succ ctx.items idx (id, upd) _ _ hlen,
            List.countP_append, List.countP_append, hdropidx, List.countP_cons]
          have hfresh := freshCount regs push ctx.nextId id2
          simp only [beq_iff_eq]
          split_ifs at hfresh ⊢ <;> omega
        · -- drop
          by_cases hbc : idx ≥ (ctx.items.set idx (id, upd) ++
              (assignIds ctx.nextId regs).1 ++
              (assignIds (assignIds ctx.nextId regs).2 push).1).length - 1
          · -- last slot: pop and break
            have hk : regs.length = 0 ∧ push.length = 0 := by
              rw [hlen1] at hbc
              omega
            obtain ⟨hk1, hk2⟩ := hk
            have hregs : regs = [] := List.length_eq_zero.1 hk1
            have hpush : push = [] := List.length_eq_zero.1 hk2
            subst hregs
            subst hpush
            have hbc2 : idx ≥ (ctx.items.set idx (id, upd)).length - 1 := by
              simpa [assignIds] using hbc
            simp only [innerLoop, hit, hp,
              afterPoll_drop_break { ctx with srvSt := s1 } idx id upd hbc2, if_true] at h
            injection h with h1 h2 h3
            subst h1
            subst h3
            have hid2' : id2 < ctx.nextId := hid2
            have hcond : ¬ ctx.nextId ≤ id2 := by omega
            have hidxlast : ctx.items.length ≤ idx + 1 := by
              simp at hbc2
              omega
            rw [hjc id2, hdropidx, List.countP_cons, List.drop_eq_nil_of_le hidxlast,
              if_neg hcond]
            simp only [beq_iff_eq, List.countP_nil]
            split_ifs <;> omega
          · -- swap with last, index not advanced
            have hswap := afterPoll_drop_swap { ctx with srvSt := s1 } idx id upd regs push
              (Nat.lt_of_not_le hbc)
            simp only [innerLoop, hit, hp, hswap, Bool.false_eq_true, if_false] at h
            obtain ⟨tr3, hr, rfl⟩ := push_cont_inv h
            have hwfC : ∀ p ∈ ((ctx.items.set idx (id, upd) ++
                (assignIds ctx.nextId regs).1 ++
                (assignIds (assignIds ctx.nextId regs).2 push).1).dropLast.set idx
                  ((ctx.items.set idx (id, upd) ++ (assignIds ctx.nextId regs).1 ++
                    (assignIds (assignIds ctx.nextId regs).2 push).1).getLast?.getD (id, upd))),
                p.1 < (assignIds (assignIds ctx.nextId regs).2 push).2 := by
              intro p hp2
              rcases List.mem_or_eq_of_mem_set hp2 with hIn | hEq
              · exact hwfItems1 p ((List.dropLast_sublist _).subset hIn)
              · obtain ⟨a, ha⟩ : ∃ a, (ctx.items.set idx (id, upd) ++
                    (assignIds ctx.nextId regs).1 ++
                    (assignIds (assignIds ctx.nextId regs).2 push).1).getLast? = some a := by
                  cases hx : (ctx.items.set idx (id, upd) ++ (assignIds ctx.nextId regs).1 ++
                      (assignIds (assignIds ctx.nextId regs).2 push).1).getLast? with
                  | none =>
                    have := List.getLast?_eq_none_iff.1 hx
                    rw [this] at hlen1
                    simp at hlen1
                    omega
                  | some a => exact ⟨a, rfl⟩
                rw [hEq, ha, Option.getD_some]
                exact hwfItems1 a (List.mem_of_getLast?_eq_some ha)
            have hIH := ih _ idx (nr && !prog) ctx2 nr2 tr3 hr hwfC id2 hid2
            have hlt1 : idx < ((ctx.items.set idx (id, upd) ++
                (assignIds ctx.nextId regs).1 ++
                (assignIds (assignIds ctx.nextId regs).2 push).1).dropLast).length := by
              rw [List.length_dropLast, hlen1]
              omega
            have hXlast : ((ctx.items.set idx (id, upd) ++ (assignIds ctx.nextId regs).1 ++
                (assignIds (assignIds ctx.nextId regs).2 push).1).drop (idx + 1)).getLast? =
                (ctx.items.set idx (id, upd) ++ (assignIds ctx.nextId regs).1 ++
                (assignIds (assignIds ctx.nextId regs).2 push).1).getLast? := by
              apply getLast?_drop_of_lt
              rw [hlen1]
              omega
            have hXne : (ctx.items.set idx (id, upd) ++ (assignIds ctx.nextId regs).1 ++
                (assignIds (assignIds ctx.nextId regs).2 push).1).drop (idx + 1) ≠ [] := by
              intro hnil
              have := List.drop_eq_nil_iff.1 hnil
              rw [hlen1] at this
              omega
            have hcsw := count_swap_remove ((ctx.items.set idx (id, upd) ++
                (assignIds ctx.nextId regs).1 ++
                (assignIds (assignIds ctx.nextId regs).2 push).1).drop (idx + 1))
              (fun p => p.1 == id2) hXne (id, upd)
            rw [List.countP_append, hjc id2, hIH]
            simp only
            rw [drop_set_self _ idx _ hlt1]
            rw [← dropLast_drop_comm]
            rw [← hXlast]
            rw [hcsw]
            rw [items1_drop_succ ctx.items idx (id, upd) _ _ hlen,
              List.countP_append, List.countP_append, hdropidx, List.countP_cons]
            have hfresh := freshCount regs push ctx.nextId id2
            simp only [beq_iff_eq]
            split_ifs at hfresh ⊢ <;> omega

theorem innerLoop_nextId_mono {σ I E RI RE : Type} (S : Service σ I E RI RE) :
    ∀ (fuel : Nat) (ctx : Context σ I E RI RE) (idx : Nat) (nr : Bool)
      (ctx2 : Context σ I E RI RE) (nr2 : Bool) (tr : List (Event I E RI RE)),
      innerLoop S fuel ctx idx nr = .cont ctx2 nr2 tr → ctx.nextId ≤ ctx2.nextId := by
  intro fuel
  induction fuel with
  | zero =>
    intro ctx idx nr ctx2 nr2 tr h
    simp only [innerLoop] at h
    exact InnerRes.noConfusion h
  | succ fuel ih =>
    intro ctx idx nr ctx2 nr2 tr h
    rcases hit : ctx.items[idx]? with _ | ⟨id, job⟩
    · simp only [innerLoop, hit] at h
      injection h with h1 h2 h3
      subst h1
      exact Nat.le_refl _
    · obtain ⟨hlen, _⟩ := List.getElem?_eq_some.1 hit
      rcases hp : pollJob S ctx.srvSt id job with ⟨t, evs⟩ |
        ⟨s1, upd, regs, push, drop, prog, evs⟩
      · simp only [innerLoop, hit, hp] at h
        exact InnerRes.noConfusion h
      · have hsnd1 : (@assignIds I E RI RE
            ctx.nextId regs).2 = ctx.nextId + regs.length := assignIds_snd regs ctx.nextId
        have hsnd2 : (assignIds (@assignIds I E RI RE
            ctx.nextId regs).2 push).2 = (@assignIds I E RI RE
            ctx.nextId regs).2 + push.length := assignIds_snd push _
        have hlen1 : (ctx.items.set idx (id, upd) ++ (assignIds ctx.nextId regs).1 ++
            (assignIds (assignIds ctx.nextId regs).2 push).1).length =
            ctx.items.length + regs.length + push.length := by
          simp [assignIds_length]
          omega
        cases drop
        · simp only [innerLoop, hit, hp, afterPoll_keep, Bool.false_eq_true, if_false] at h
          obtain ⟨tr3, hr, rfl⟩ := push_cont_inv h
          have := ih _ (idx + 1) (nr && !prog) ctx2 nr2 tr3 hr
          simp only at this
          omega
        · by_cases hbc : idx ≥ (ctx.items.set idx (id, upd) ++
              (assignIds ctx.nextId regs).1 ++
              (assignIds (assignIds ctx.nextId regs).2 push).1).length - 1
          · have hk : regs.length = 0 ∧ push.length = 0 := by
              rw [hlen1] at hbc
              omega
            obtain ⟨hk1, hk2⟩ := hk
            have hregs : regs = [] := List.length_eq_zero.1 hk1
            have hpush : push = [] := List.length_eq_zero.1 hk2
            subst hregs
            subst hpush
            have hbc2 : idx ≥ (ctx.items.set idx (id, upd)).length - 1 := by
              simpa [assignIds] using hbc
            simp only [innerLoop, hit, hp,
              afterPoll_drop_break { ctx with srvSt := s1 } idx id upd hbc2, if_true] at h
            injection h with h1 h2 h3
            subst h1
            exact Nat.le_refl _
          · have hswap := afterPoll_drop_swap { ctx with srvSt := s1 } idx id upd regs push
              (Nat.lt_of_not_le hbc)
            simp only [innerLoop, hit, hp, hswap, Bool.false_eq_true, if_false] at h
            obtain ⟨tr3, hr, rfl⟩ := push_cont_inv h
            have := ih _ idx (nr && !prog) ctx2 nr2 tr3 hr
            simp only at this
            omega

theorem addItems_eq {σ I E RI RE : Type} (ctx : Context σ I E RI RE)
    (regs : List (Item I E RI RE)) :
    addItems ctx regs =
      { ctx with
        items := ctx.items ++ (assignIds ctx.nextId regs).1,
        nextId := (assignIds ctx.nextId regs).2 } := by
  rcases h : assignIds ctx.nextId regs with ⟨a, b⟩
  simp [addItems, h]

theorem countP_fst_eq_one {α : Type} (l : List (Nat × α)) (id : Nat) (a : α)
    (hnodup : (l.map Prod.fst).Nodup) (hmem : (id, a) ∈ l) :
    l.countP (fun p => p.1 == id) = 1 := by
  have heq : l.countP (fun p => p.1 == id) = (l.map Prod.fst).count id := by
    rw [List.count, List.countP_map]
    rfl
  rw [heq]
  exact List.count_eq_one_of_mem hnodup (List.mem_map.2 ⟨(id, a), hmem, rfl⟩)

theorem sweepOnce_count {σ I E RI RE : Type} (S : Service σ I E RI RE) (g : Nat)
    (ctx ctx2 : Context σ I E RI RE) (flag : Bool) (tr : List (Event I E RI RE))
    (hrun : sweepOnce S g ctx = .cont ctx2 flag tr)
    (hwf : ∀ p ∈ ctx.items, p.1 < ctx.nextId) :
    ctx.nextId ≤ ctx2.nextId ∧
    ∀ id2, id2 < ctx2.nextId →
      tr.countP (isJobEvFor id2) =
        ctx.items.countP (fun p => p.1 == id2) + (if ctx.nextId ≤ id2 then 1 else 0) := by
  rcases hs : ctx.stream with _ | ⟨p, s1⟩
  · simp only [sweepOnce, hs, pollStream] at hrun
    obtain ⟨tr3, hr, rfl⟩ := push_cont_inv hrun
    have hmono := innerLoop_nextId_mono S g _ 0 true ctx2 flag tr3 hr
    simp only at hmono
    refine ⟨hmono, fun id2 hid2 => ?_⟩
    have hcnt := innerLoop_count S g _ 0 true ctx2 flag tr3 hr hwf id2 hid2
    simp only [List.drop_zero] at hcnt
    simp [List.countP_cons, isJobEvFor, hcnt]
  · cases p with
    | ready v =>
      rcases hc : S.call ctx.srvSt (Except.ok v) with ⟨s2, resp, regs⟩
      cases resp <;> simp only [sweepOnce, hs, pollStream, hc] at hrun <;>
        try exact InnerRes.noConfusion hrun
      rw [addItems_eq] at hrun
      obtain ⟨tr3, hr, rfl⟩ := push_cont_inv hrun
      have hsnd : (@assignIds I E RI RE
          ctx.nextId regs).2 = ctx.nextId + regs.length := assignIds_snd regs ctx.nextId
      have hmono := innerLoop_nextId_mono S g _ 0 false ctx2 flag tr3 hr
      simp only at hmono
      have hwfA : ∀ q ∈ ctx.items ++ (assignIds ctx.nextId regs).1,
          q.1 < (assignIds ctx.nextId regs).2 := by
        intro q hq
        rcases List.mem_append.1 hq with hq1 | hq2
        · have := hwf q hq1
          omega
        · have := assignIds_bounds regs ctx.nextId q hq2
          omega
      refine ⟨by omega, fun id2 hid2 => ?_⟩
      have hcnt := innerLoop_count S g _ 0 false ctx2 flag tr3 hr hwfA id2 hid2
      simp only [List.drop_zero] at hcnt
      rw [List.countP_append] at hcnt
      have hfr := assignIds_countP regs ctx.nextId id2
      rw [hfr] at hcnt
      rw [List.countP_append, hcnt]
      have hheads : List.countP (isJobEvFor id2) ([Event.streamEv (StreamPoll.ready v), Event.callEv (Except.ok v) Poll.notReady] : List (Event I E RI RE)) = 0 := by
        simp [isJobEvFor]
      rw [hheads]
      split_ifs <;> omega
    | done =>
      rcases hc : S.finished ctx.srvSt with ⟨s2, resp, regs⟩
      cases resp <;> simp only [sweepOnce, hs, pollStream, hc] at hrun <;>
        try exact InnerRes.noConfusion hrun
      rw [addItems_eq] at hrun
      obtain ⟨tr3, hr, rfl⟩ := push_cont_inv hrun
      have hsnd : (@assignIds I E RI RE
          ctx.nextId regs).2 = ctx.nextId + regs.length := assignIds_snd regs ctx.nextId
      have hmono := innerLoop_nextId_mono S g _ 0 true ctx2 flag tr3 hr
      simp only at hmono
      have hwfA : ∀ q ∈ ctx.items ++ (assignIds ctx.nextId regs).1,
          q.1 < (assignIds ctx.nextId regs).2 := by
        intro q hq
        rcases List.mem_append.1 hq with hq1 | hq2
        · have := hwf q hq1
          omega
        · have := assignIds_bounds regs ctx.nextId q hq2
          omega
      refine ⟨by omega, fun id2 hid2 => ?_⟩
      have hcnt := innerLoop_count S g _ 0 true ctx2 flag tr3 hr hwfA id2 hid2
      simp only [List.drop_zero] at hcnt
      rw [List.countP_append] at hcnt
      have hfr := assignIds_countP regs ctx.nextId id2
      rw [hfr] at hcnt
      rw [List.countP_append, hcnt]
      have hheads : List.countP (isJobEvFor id2) ([Event.streamEv StreamPoll.done, Event.finishedEv Poll.notReady] : List (Event I E RI RE)) = 0 := by
        simp [isJobEvFor]
      rw [hheads]
      split_ifs <;> omega
    | notReady =>
      simp only [sweepOnce, hs, pollStream] at hrun
      obtain ⟨tr3, hr, rfl⟩ := push_cont_inv hrun
      have hmono := innerLoop_nextId_mono S g _ 0 true ctx2 flag tr3 hr
      simp only at hmono
      refine ⟨hmono, fun id2 hid2 => ?_⟩
      have hcnt := innerLoop_count S g _ 0 true ctx2 flag tr3 hr hwf id2 hid2
      simp only [List.drop_zero] at hcnt
      simp [List.countP_cons, isJobEvFor, hcnt]
    | err e =>
      rcases hc : S.call ctx.srvSt (Except.error e) with ⟨s2, resp, regs⟩
      cases resp <;> simp only [sweepOnce, hs, pollStream, hc] at hrun <;>
        try exact InnerRes.noConfusion hrun
      rw [addItems_eq] at hrun
      obtain ⟨tr3, hr, rfl⟩ := push_cont_inv hrun
      have hsnd : (@assignIds I E RI RE
          ctx.nextId regs).2 = ctx.nextId + regs.length := assignIds_snd regs ctx.nextId
      have hmono := innerLoop_nextId_mono S g _ 0 true ctx2 flag tr3 hr
      simp only at hmono
      have hwfA : ∀ q ∈ ctx.items ++ (assignIds ctx.nextId regs).1,
          q.1 < (assignIds ctx.nextId regs).2 := by
        intro q hq
        rcases List.mem_append.1 hq with hq1 | hq2
        · have := hwf q hq1
          omega
        · have := assignIds_bounds regs ctx.nextId q hq2
          omega
      refine ⟨by omega, fun id2 hid2 => ?_⟩
      have hcnt := innerLoop_count S g _ 0 true ctx2 flag tr3 hr hwfA id2 hid2
      simp only [List.drop_zero] at hcnt
      rw [List.countP_append] at hcnt
      have hfr := assignIds_countP regs ctx.nextId id2
      rw [hfr] at hcnt
      rw [List.countP_append, hcnt]
      have hheads : List.countP (isJobEvFor id2) ([Event.streamEv (StreamPoll.err e), Event.callEv (Except.error e) Poll.notReady] : List (Event I E RI RE)) = 0 := by
        simp [isJobEvFor]
      rw [hheads]
      split_ifs <;> omega

/-- C5: when the inner loop removes a job it swaps the last element into the
vacated index without advancing the index (popping and stopping when the slot
was last), and as a consequence every job present at the start of a completed
sweep, still-pending or not, is polled exactly once in that sweep, regardless
of how many removals preceded it: the trace contains exactly one poll event
for its ghost id. -/
theorem jobs_polled_once_per_sweep {σ I E RI RE : Type} (S : Service σ I E RI RE)
    (g : Nat) (ctx ctx2 : Context σ I E RI RE) (flag : Bool)
    (tr : List (Event I E RI RE)) (id : Nat) (j : Item I E RI RE)
    (hrun : sweepOnce S g ctx = .cont ctx2 flag tr)
    (hwf : ∀ p ∈ ctx.items, p.1 < ctx.nextId)
    (hnodup : (ctx.items.map Prod.fst).Nodup)
    (hmem : (id, j) ∈ ctx.items) :
    tr.countP (isJobEvFor id) = 1 := by
  obtain ⟨hmono, hcnt⟩ := sweepOnce_count S g ctx ctx2 flag tr hrun hwf
  have hidlt : id < ctx.nextId := hwf _ hmem
  have h1 := hcnt id (by omega)
  rw [countP_fst_eq_one ctx.items id j hnodup hmem, if_neg (by omega)] at h1
  exact h1

/-- Witness for C5: the sink job that gets swapped into the removed plain
task's slot is still polled exactly once in the sweep. -/
theorem jobs_polled_once_per_sweep_witness :
    (sweepOnce trivialService 3
        ⟨(), true, [], [(0, Item.Future [Poll.ready 7]), (1, Item.Sink [])], 2⟩ =
      InnerRes.cont ⟨(), true, [], [(1, Item.Sink [])], 2⟩ false
        [Event.streamEv StreamPoll.notReady, Event.jobEv 0 (JobRes.ok 7),
          Event.callEv (Except.ok 7) Poll.notReady, Event.jobEv 1 JobRes.pend]) ∧
    ([Event.streamEv StreamPoll.notReady, Event.jobEv 0 (JobRes.ok 7),
      Event.callEv (Except.ok 7) Poll.notReady,
      Event.jobEv 1 JobRes.pend] : List (Event Nat Nat Nat Nat)).countP (isJobEvFor 1) = 1 :=
  ⟨by decide,
    jobs_polled_once_per_sweep trivialService 3
      ⟨(), true, [], [(0, Item.Future [Poll.ready 7]), (1, Item.Sink [])], 2⟩
      ⟨(), true, [], [(1, Item.Sink [])], 2⟩ false
      [Event.streamEv StreamPoll.notReady, Event.jobEv 0 (JobRes.ok 7),
        Event.callEv (Except.ok 7) Poll.notReady, Event.jobEv 1 JobRes.pend]
      1 (Item.Sink []) (by decide) (by decide) (by decide) (by decide)⟩

/-- C9: every job registered by a callback during a completed sweep (its
ghost id lies in the interval of ids assigned during that sweep) is itself
polled exactly once before that sweep's inner loop ends, because the loop
bound is re-read after every job; in particular no registered job is lost. -/
theorem registered_jobs_polled_same_sweep {σ I E RI RE : Type} (S : Service σ I E RI RE)
    (g : Nat) (ctx ctx2 : Context σ I E RI RE) (flag : Bool)
    (tr : List (Event I E RI RE)) (id : Nat)
    (hrun : sweepOnce S g ctx = .cont ctx2 flag tr)
    (hwf : ∀ p ∈ ctx.items, p.1 < ctx.nextId)
    (hlo : ctx.nextId ≤ id) (hhi : id < ctx2.nextId) :
    tr.countP (isJobEvFor id) = 1 := by
  obtain ⟨hmono, hcnt⟩ := sweepOnce_count S g ctx ctx2 flag tr hrun hwf
  have h1 := hcnt id hhi
  have hz : ctx.items.countP (fun p => p.1 == id) = 0 := by
    apply List.countP_eq_zero.2
    intro p hp
    have := hwf p hp
    simp only [beq_iff_eq]
    omega
  rw [hz, if_pos hlo] at h1
  simpa using h1

/-- Witness for C9: a job registered by `call` mid-sweep is polled in the
same sweep. -/
theorem registered_jobs_polled_same_sweep_witness :
    (sweepOnce registeringService 5 ⟨(), true, [StreamPoll.ready 1], [], 0⟩ =
      InnerRes.cont ⟨(), true, [], [], 1⟩ false
        [Event.streamEv (StreamPoll.ready 1), Event.callEv (Except.ok 1) Poll.notReady,
          Event.jobEv 0 (JobRes.ok 50), Event.callEv (Except.ok 50) Poll.notReady]) ∧
    ([Event.streamEv (StreamPoll.ready 1), Event.callEv (Except.ok 1) Poll.notReady,
      Event.jobEv 0 (JobRes.ok 50),
      Event.callEv (Except.ok 50) Poll.notReady] :
        List (Event Nat Nat Nat Nat)).countP (isJobEvFor 0) = 1 :=
  ⟨by decide,
    registered_jobs_polled_same_sweep registeringService 5
      ⟨(), true, [StreamPoll.ready 1], [], 0⟩ ⟨(), true, [], [], 1⟩ false
      [Event.streamEv (StreamPoll.ready 1), Event.callEv (Except.ok 1) Poll.notReady,
        Event.jobEv 0 (JobRes.ok 50), Event.callEv (Except.ok 50) Poll.notReady]
      0 (by decide) (by decide) (by decide) (by decide)⟩
